import Mathlib

/-!
Shallow embedding of `src/egui/src/paint/font.rs` (text shaping and layout:
`Font`, `Line`, `Galley`).  `f32` values are modelled by `ℚ` (exact arithmetic);
machine-float rounding is irrelevant to the structural properties proved here.
The external rusttype font and the texture atlas are modelled by abstract
parameter functions carried in the `Font` structure.
-/

namespace EguiFont

/-- Embeds `math::Vec2` (two coordinates, here exact rationals). -/
structure Vec2 where
  x : ℚ
  y : ℚ
deriving DecidableEq, Repr

/-- Embeds `rusttype::GlyphId` (an opaque glyph handle). -/
abbrev GlyphId := ℕ

/-- Embeds `UvRect`: offset/size in points plus atlas texture corners. -/
structure UvRect where
  offset : Vec2
  size : Vec2
  uv_min : ℕ × ℕ
  uv_max : ℕ × ℕ
deriving DecidableEq, Repr

/-- Embeds `GlyphInfo`: glyph id, advance width in points, optional texture rect. -/
structure GlyphInfo where
  id : GlyphId
  advance_width : ℚ
  uv_rect : Option UvRect
deriving DecidableEq, Repr

/-- Embeds `GalleyCursor`. -/
structure GalleyCursor where
  char_idx : ℕ
  line : ℕ
  column : ℕ
deriving DecidableEq, Repr

/-- Embeds `Line`: per-character horizontal offsets plus vertical span and
newline-termination flag. -/
structure Line where
  x_offsets : List ℚ
  y_min : ℚ
  y_max : ℚ
  ends_with_newline : Bool
deriving DecidableEq, Repr

/-- Embeds `Galley`: the full text, the typeset lines, and the overall size. -/
structure Galley where
  text : List Char
  lines : List Line
  size : Vec2
deriving DecidableEq, Repr

/-- Embeds `Line::char_count_excluding_newline`: `x_offsets.len() - 1`. -/
def Line.char_count_excluding_newline (l : Line) : ℕ :=
  l.x_offsets.length - 1

/-- Embeds `Line::char_count_including_newline`. -/
def Line.char_count_including_newline (l : Line) : ℕ :=
  l.char_count_excluding_newline + (if l.ends_with_newline then 1 else 0)

/-- Embeds `Line::min_x` (`x_offsets.first().unwrap()`; the source unwrap never
fails because `x_offsets` is never empty). -/
def Line.min_x (l : Line) : ℚ :=
  l.x_offsets.headD 0

/-- Embeds `Line::max_x` (`x_offsets.last().unwrap()`). -/
def Line.max_x (l : Line) : ℚ :=
  l.x_offsets.getLastD 0

/-- Sum over a list of lines of `char_count_including_newline` (the quantity
checked by `Galley::sanity_check`). -/
def sumIncl (ls : List Line) : ℕ :=
  (ls.map Line.char_count_including_newline).sum

/--
Embeds the layout-relevant state of `Font`.
`glyph c` models the `GlyphInfo` returned by `Font::glyph_info(c)`: the
metrics resolved from the rusttype font with fallback to the replacement
glyph.  (The cache inside `glyph_info` — modelled separately below as
`FontModel.glyph_info` — never changes the metrics returned for a character,
so for layout it is a pure function of the character.)
`pair_kerning a b` models `self.font.pair_kerning(scale_in_pixels, a, b)`,
a value in pixels at the font's fixed scale.
-/
structure Font where
  scale_in_pixels : ℚ
  pixels_per_point : ℚ
  glyph : Char → GlyphInfo
  pair_kerning : GlyphId → GlyphId → ℚ

/-- Embeds `Font::round_to_pixel`:
`(point * self.pixels_per_point).round() / self.pixels_per_point`. -/
def Font.round_to_pixel (f : Font) (p : ℚ) : ℚ :=
  (round (p * f.pixels_per_point) : ℤ) / f.pixels_per_point

/-- Embeds `Font::line_spacing`: `scale_in_pixels / pixels_per_point`. -/
def Font.line_spacing (f : Font) : ℚ :=
  f.scale_in_pixels / f.pixels_per_point

/-- Embeds `Font::height` (same value as `line_spacing`). -/
def Font.height (f : Font) : ℚ :=
  f.scale_in_pixels / f.pixels_per_point

/-- The loop body state of `Font::layout_single_line_fragment`: produces the
cursor positions pushed after each character, given the running cursor and the
previous glyph id. -/
def fragAux (f : Font) (cursor : ℚ) (last : Option GlyphId) : List Char → List ℚ
  | [] => []
  | c :: cs =>
    let glyph := f.glyph c
    let kern : ℚ :=
      match last with
      | some lg => f.pair_kerning lg glyph.id / f.pixels_per_point
      | none => 0
    let cursor2 := f.round_to_pixel (cursor + kern + glyph.advance_width)
    cursor2 :: fragAux f cursor2 (some glyph.id) cs

/-- Embeds `Font::layout_single_line_fragment`: starts with `0.0`, then for
each character adds pair kerning with the previous glyph, adds the glyph's
advance width, and pixel-snaps the accumulated cursor. -/
def Font.layout_single_line_fragment (f : Font) (text : List Char) : List ℚ :=
  0 :: fragAux f 0 none text

/-- Embeds `Font::layout_single_line`. -/
def Font.layout_single_line (f : Font) (text : List Char) : Galley :=
  let x_offsets := f.layout_single_line_fragment text
  let line : Line := ⟨x_offsets, 0, f.height, false⟩
  let width := line.max_x
  { text := text, lines := [line], size := ⟨width, f.height⟩ }

/-- Embeds `NON_BREAKING_SPACE` from `layout_paragraph_max_width`. -/
def NON_BREAKING_SPACE : Char := Char.ofNat 0xA0

/-- Embeds Rust's `char::is_whitespace` (the Unicode `White_Space` property),
as used by `layout_paragraph_max_width` to find wrap candidates. -/
def rustIsWhitespace (c : Char) : Bool :=
  let n := c.toNat
  n = 0x9 || n = 0xA || n = 0xB || n = 0xC || n = 0xD || n = 0x20 ||
  n = 0x85 || n = 0xA0 || n = 0x1680 || (0x2000 ≤ n && n ≤ 0x200A) ||
  n = 0x2028 || n = 0x2029 || n = 0x202F || n = 0x205F || n = 0x3000

/-- The paragraph-splitting predicate of `layout_multiline`: a character that
is not the line-break `'\\n'`. -/
def notNewline (ch : Char) : Bool :=
  ch ≠ '\n'

/-- The mutable locals of the loop in `Font::layout_paragraph_max_width`. -/
structure ParaState where
  line_start_x : ℚ
  cursor_y : ℚ
  line_start_idx : ℕ
  last_space : Option ℕ
  out_lines : List Line
deriving Repr

/-- Embeds the `if line_width > max_width_in_points` block of the loop body of
`Font::layout_paragraph_max_width` (with the source's constant
`include_trailing_space = true` branch): on overflow with a wrap candidate,
push the line up to and including the candidate whitespace character and start
the next line right after it. -/
def cutStep (f : Font) (max_width_in_points : ℚ) (full_x_offsets : List ℚ)
    (x : ℚ) (s : ParaState) : ParaState :=
  if x - s.line_start_x > max_width_in_points then
    match s.last_space with
    | some last_space_idx =>
      let line : Line :=
        ⟨((full_x_offsets.drop s.line_start_idx).take
            (last_space_idx + 2 - s.line_start_idx)).map
              (fun v => v - s.line_start_x),
          s.cursor_y, s.cursor_y + f.height, false⟩
      { line_start_x := full_x_offsets.getD (last_space_idx + 1) 0,
        cursor_y := f.round_to_pixel (s.cursor_y + f.line_spacing),
        line_start_idx := last_space_idx + 1,
        last_space := none,
        out_lines := s.out_lines ++ [line] }
    | none => s
  else s

/-- Embeds the wrap-candidate update at the end of the loop body of
`Font::layout_paragraph_max_width`. -/
def spaceStep (i : ℕ) (chr : Char) (s : ParaState) : ParaState :=
  if rustIsWhitespace chr && chr ≠ NON_BREAKING_SPACE then
    { s with last_space := some i }
  else s

/-- One full iteration of the loop of `Font::layout_paragraph_max_width`. -/
def paraStep (f : Font) (max_width_in_points : ℚ) (full_x_offsets : List ℚ)
    (i : ℕ) (x : ℚ) (chr : Char) (s : ParaState) : ParaState :=
  spaceStep i chr (cutStep f max_width_in_points full_x_offsets x s)

/-- The loop of `Font::layout_paragraph_max_width`, over the enumerated zip of
`full_x_offsets.iter().skip(1)` with the paragraph's characters. -/
def paraLoop (f : Font) (max_width_in_points : ℚ) (full_x_offsets : List ℚ) :
    ℕ → List (ℚ × Char) → ParaState → ParaState
  | _, [], s => s
  | i, (x, chr) :: rest, s =>
    paraLoop f max_width_in_points full_x_offsets (i + 1) rest
      (paraStep f max_width_in_points full_x_offsets i x chr s)

/-- Embeds `Font::layout_paragraph_max_width`. -/
def Font.layout_paragraph_max_width (f : Font) (text : List Char)
    (max_width_in_points : ℚ) : List Line :=
  if text = [] then
    [⟨[0], 0, f.height, false⟩]
  else
    let full_x_offsets := f.layout_single_line_fragment text
    let s := paraLoop f max_width_in_points full_x_offsets 0
      ((full_x_offsets.drop 1).zip text)
      ⟨full_x_offsets.headD 0, 0, 0, none, []⟩
    if s.line_start_idx + 1 < full_x_offsets.length then
      s.out_lines ++
        [⟨(full_x_offsets.drop s.line_start_idx).map (fun v => v - s.line_start_x),
          s.cursor_y, s.cursor_y + f.height, false⟩]
    else
      s.out_lines

/-- Embeds `paragraph_lines.last_mut().unwrap().ends_with_newline = b` from
`Font::layout_multiline`. -/
def setLastNewline : List Line → Bool → List Line
  | [], _ => []
  | [l], b => [{ l with ends_with_newline := b }]
  | l :: l2 :: ls, b => l :: setLastNewline (l2 :: ls) b

/-- Embeds the paragraph loop of `Font::layout_multiline`: splits the text at
each `'\n'`, lays out each paragraph, marks the paragraph's last line with
whether a `'\n'` followed it, offsets the paragraph's lines by the running
vertical cursor, and advances the cursor past the paragraph plus the
inter-paragraph gap of `line_spacing * 0.4`.  Returns the produced lines and
the final cursor. -/
def multilineParas (f : Font) (max_width_in_points : ℚ) :
    List Char → ℚ → List Line × ℚ
  | [], cursor_y => ([], cursor_y)
  | c :: cs, cursor_y =>
    let text := c :: cs
    let para := text.takeWhile notNewline
    let rest := text.dropWhile notNewline
    let found_newline := !rest.isEmpty
    let paragraph_lines := f.layout_paragraph_max_width para max_width_in_points
    let paragraph_lines := setLastNewline paragraph_lines found_newline
    let paragraph_lines := paragraph_lines.map
      (fun l => { l with y_min := l.y_min + cursor_y, y_max := l.y_max + cursor_y })
    let cursor_y2 :=
      (match paragraph_lines.getLast? with
       | some l => l.y_max
       | none => cursor_y) + f.line_spacing * (2 / 5 : ℚ)
    let r := multilineParas f max_width_in_points rest.tail cursor_y2
    (paragraph_lines ++ r.1, r.2)
termination_by t _ => t.length
decreasing_by
  simp only [List.length_tail, List.length_cons]
  have h1 : (List.dropWhile notNewline (c :: cs)).length ≤ cs.length + 1 := by
    simpa using (List.dropWhile_suffix (l := c :: cs) notNewline).length_le
  omega

/-- Embeds `Font::layout_multiline`. -/
def Font.layout_multiline (f : Font) (text : List Char)
    (max_width_in_points : ℚ) : Galley :=
  let p := multilineParas f max_width_in_points text 0
  let lines :=
    if text = [] ∨ text.getLast? = some '\n' then
      p.1 ++ [⟨[0], p.2, p.2 + f.line_spacing, false⟩]
    else
      p.1
  let widest_line := lines.foldl (fun w l => max l.max_x w) 0
  { text := text, lines := lines,
    size := ⟨widest_line,
             match lines.getLast? with
             | some l => l.y_max
             | none => 0⟩ }

/-- A default `Line` value, used only as the irrelevant default of `List.getD`
in statements about in-range indices. -/
def dfltLine : Line := ⟨[], 0, 0, false⟩

/-- The loop of `Galley::char_start_pos`: walk the lines accumulating
character counts (including implicit newlines) until the owning line is
found; otherwise return the fallback computed after the loop. -/
def charStartPosLoop (char_idx : ℕ) (fallback : Vec2) :
    ℕ → List Line → Vec2
  | _, [] => fallback
  | char_count, l :: ls =>
    let line_char_count := l.char_count_including_newline
    if char_count ≤ char_idx ∧ char_idx < char_count + line_char_count then
      ⟨l.x_offsets.getD (char_idx - char_count) 0, l.y_min⟩
    else
      charStartPosLoop char_idx fallback (char_count + line_char_count) ls

/-- Embeds `Galley::char_start_pos`. -/
def Galley.char_start_pos (g : Galley) (char_idx : ℕ) : Vec2 :=
  charStartPosLoop char_idx
    (match g.lines.getLast? with
     | some last => ⟨last.max_x, last.y_min⟩
     | none => ⟨0, 0⟩)
    0 g.lines

/-- The loop of `Line::char_at` over `x_offsets.windows(2)`: return the first
index whose midpoint strictly exceeds the desired x; otherwise the fallback
(`char_count_excluding_newline`). -/
def charAtGo (desired_x : ℚ) (fallback : ℕ) : ℕ → List ℚ → ℕ
  | _, [] => fallback
  | _, [_] => fallback
  | i, a :: b :: rest =>
    if desired_x < (1 / 2 : ℚ) * (a + b) then i
    else charAtGo desired_x fallback (i + 1) (b :: rest)

/-- Embeds `Line::char_at`. -/
def Line.char_at (l : Line) (desired_x : ℚ) : ℕ :=
  charAtGo desired_x l.char_count_excluding_newline 0 l.x_offsets

/-- The loop of `Galley::char_at`: `best` is `none` for the initial
`f32::INFINITY` best distance, otherwise the best distance so far. -/
def charAtLoop (px py : ℚ) :
    List Line → ℕ → ℕ → Option ℚ → GalleyCursor → GalleyCursor
  | [], _, _, _, cursor => cursor
  | l :: ls, line_nr, char_count, best, cursor =>
    let y_dist := min |l.y_min - py| |l.y_max - py|
    if (match best with
        | none => true
        | some b => decide (y_dist < b)) then
      let column := l.char_at px
      charAtLoop px py ls (line_nr + 1)
        (char_count + l.char_count_including_newline)
        (some y_dist) ⟨char_count + column, line_nr, column⟩
    else
      charAtLoop px py ls (line_nr + 1)
        (char_count + l.char_count_including_newline) best cursor

/-- Embeds `Galley::char_at`. -/
def Galley.char_at (g : Galley) (pos : Vec2) : GalleyCursor :=
  charAtLoop pos.x pos.y g.lines 0 0 none ⟨0, 0, 0⟩

/-- The vertical distance used for line selection in `Galley::char_at`:
`(line.y_min - pos.y).abs().min((line.y_max - pos.y).abs())`. -/
def yDist (l : Line) (py : ℚ) : ℚ :=
  min |l.y_min - py| |l.y_max - py|

/--
Embeds the immutable inputs of `Font::glyph_info`'s cache-miss path:
`allocate c atlas` models `allocate_glyph(&mut atlas, c, font, scale, ppp)`,
which may mutate the atlas (modelled as an abstract state `ℕ`) and returns
`none` when the font has no glyph for `c`; `replacement_glyph_info` is the
pre-resolved metrics of `REPLACEMENT_CHAR`.
-/
structure FontModel where
  allocate : Char → ℕ → Option GlyphInfo × ℕ
  replacement_glyph_info : GlyphInfo

/-- The mutable state read and written by `Font::glyph_info`: the
`glyph_infos` cache (a map, modelled as a function) and the shared atlas. -/
structure FontCacheState where
  glyph_infos : Char → Option GlyphInfo
  atlas : ℕ

/-- Embeds `Font::glyph_info`: on a cache hit return the cached copy;
on a miss run the allocator, fall back to the replacement glyph's metrics if
it found no glyph, and cache the result under the requested character. -/
def FontModel.glyph_info (fm : FontModel) (s : FontCacheState) (c : Char) :
    GlyphInfo × FontCacheState :=
  match s.glyph_infos c with
  | some glyph_info => (glyph_info, s)
  | none =>
    let res := fm.allocate c s.atlas
    let glyph_info := res.1.getD fm.replacement_glyph_info
    (glyph_info,
     { glyph_infos := fun c2 => if c2 = c then some glyph_info else s.glyph_infos c2,
       atlas := res.2 })

/-- Sum over a list of lines of `char_count_excluding_newline`. -/
def sumExcl (ls : List Line) : ℕ :=
  (ls.map Line.char_count_excluding_newline).sum

/-- The kerning adjustment added before the `i`-th character of a fragment
whose previous glyph (for the first character) is `last`:
`0` for the first character with no predecessor, otherwise the font's pair
kerning between the previous and current glyph, divided by
`pixels_per_point`. -/
def kernAt (f : Font) (last : Option GlyphId) (t : List Char) : ℕ → ℚ
  | 0 =>
    match last with
    | none => 0
    | some lg => f.pair_kerning lg (f.glyph (t.getD 0 ' ')).id / f.pixels_per_point
  | j + 1 =>
    f.pair_kerning (f.glyph (t.getD j ' ')).id (f.glyph (t.getD (j + 1) ' ')).id /
      f.pixels_per_point

/-- Sanity conditions on the abstract font metrics under which layout cursors
never move backwards: positive DPI scale, non-negative advance widths, and
kerning that never outweighs the following glyph's advance. -/
def Font.validMetrics (f : Font) : Prop :=
  0 < f.pixels_per_point ∧
  (∀ c, 0 ≤ (f.glyph c).advance_width) ∧
  (∀ g c, 0 ≤ f.pair_kerning g (f.glyph c).id / f.pixels_per_point +
    (f.glyph c).advance_width)

/-- Invariant of the wrap loop of `layout_paragraph_max_width`, at step `i`
(characters `0..i` already processed). -/
def ParaInv (full : List ℚ) (i : ℕ) (s : ParaState) : Prop :=
  s.line_start_idx ≤ i ∧
  (∀ j, s.last_space = some j → s.line_start_idx ≤ j ∧ j < i) ∧
  s.line_start_x = full.getD s.line_start_idx 0 ∧
  sumExcl s.out_lines = s.line_start_idx ∧
  (∀ l ∈ s.out_lines, l.ends_with_newline = false) ∧
  (s.line_start_idx ≠ 0 → s.out_lines ≠ []) ∧
  (∀ l ∈ s.out_lines, ∃ a b, a + b ≤ full.length ∧ 1 ≤ b ∧
    l.x_offsets = ((full.drop a).take b).map (fun v => v - full.getD a 0))

/-- The midpoint between consecutive offsets `j` and `j + 1` of a list. -/
def midAt (lst : List ℚ) (j : ℕ) : ℚ :=
  (1 / 2 : ℚ) * (lst.getD j 0 + lst.getD (j + 1) 0)

/-- Declarative description of `Line::char_at`: the result is at most
`char_count_excluding_newline`, no earlier midpoint strictly exceeds the
desired x, and unless the fallback value is returned the midpoint at the
result does. -/
def ColumnSpec (l : Line) (x : ℚ) : Prop :=
  l.char_at x ≤ l.char_count_excluding_newline ∧
  (∀ j, j < l.char_at x → ¬ x < midAt l.x_offsets j) ∧
  (l.char_at x < l.char_count_excluding_newline → x < midAt l.x_offsets (l.char_at x))

/-- Declarative description of `Galley::char_at` for a galley with at least
one line: the cursor points at the earliest line of minimal vertical distance,
its column is `Line::char_at` of that line, and its character index is the
count of all characters on earlier lines plus the column. -/
def CharAtSpec (g : Galley) (pos : Vec2) : Prop :=
  ∃ k, k < g.lines.length ∧
    (g.char_at pos).line = k ∧
    (∀ j, j < g.lines.length →
      yDist (g.lines.getD k dfltLine) pos.y ≤ yDist (g.lines.getD j dfltLine) pos.y) ∧
    (∀ j, j < k →
      yDist (g.lines.getD k dfltLine) pos.y < yDist (g.lines.getD j dfltLine) pos.y) ∧
    (g.char_at pos).column = (g.lines.getD k dfltLine).char_at pos.x ∧
    (g.char_at pos).char_idx = sumIncl (g.lines.take k) + (g.char_at pos).column

/-- Invariant of the line-selection loop of `Galley::char_at` after processing
the prefix `pre` of the galley's lines. -/
def CharAtInv (px py : ℚ) (pre : List Line) (best : Option ℚ)
    (cursor : GalleyCursor) : Prop :=
  (best = none → pre = [] ∧ cursor = ⟨0, 0, 0⟩) ∧
  (∀ b, best = some b → ∃ k, k < pre.length ∧
    cursor.line = k ∧
    yDist (pre.getD k dfltLine) py = b ∧
    (∀ j, j < pre.length → b ≤ yDist (pre.getD j dfltLine) py) ∧
    (∀ j, j < k → b < yDist (pre.getD j dfltLine) py) ∧
    cursor.column = (pre.getD k dfltLine).char_at px ∧
    cursor.char_idx = sumIncl (pre.take k) + cursor.column)

/--
Positional description of the `ends_with_newline` flag of line `k` of a line
list `L` laid out from text `t`: the flag is set exactly when the line's
cumulative character span (counting implicit newlines) ends on a `'\n'` of
`t`, and none of the line's own characters (the `char_count_excluding_newline`
ones starting at the span of the previous lines) is a `'\n'`.  Together these
say a line is flagged iff it is the last line of its paragraph and a `'\n'`
follows that paragraph in `t`.
-/
def FlagPos (t : List Char) (L : List Line) (k : ℕ) : Prop :=
  (((L.getD k dfltLine).ends_with_newline = true) ↔
    (0 < (L.getD k dfltLine).char_count_including_newline ∧
     t.getD (sumIncl (L.take (k + 1)) - 1) ' ' = '\n')) ∧
  (∀ i, i < (L.getD k dfltLine).char_count_excluding_newline →
    t.getD (sumIncl (L.take k) + i) ' ' ≠ '\n')

/-- A concrete test font: one point of advance per glyph, no kerning,
one pixel per point. -/
def fUnit : Font :=
  { scale_in_pixels := 13, pixels_per_point := 1,
    glyph := fun c => ⟨c.toNat, 1, none⟩,
    pair_kerning := fun _ _ => 0 }

/-- A concrete test font model whose allocator knows only `'a'`
(returning advance `2`) and advances the atlas state on each allocation. -/
def fmTest : FontModel :=
  { allocate := fun c n =>
      (if c = 'a' then some ⟨1, 2, none⟩ else none, n + 1),
    replacement_glyph_info := ⟨0, 1, none⟩ }

/-- A concrete two-line test galley. -/
def gTest : Galley :=
  ⟨['a', 'b', '\n', 'c'],
   [⟨[0, 1, 2], 0, 13, true⟩, ⟨[0, 1], 18, 31, false⟩],
   ⟨2, 31⟩⟩

/-- A concrete galley with no lines. -/
def gEmpty : Galley :=
  ⟨[], [], ⟨0, 0⟩⟩

/-! ## Rounding lemmas -/

theorem round_rat_mono {x y : ℚ} (h : x ≤ y) : round x ≤ round y := by
  rw [round_eq, round_eq]
  exact Int.floor_le_floor (by linarith)

theorem round_to_pixel_mono (f : Font) (hp : 0 < f.pixels_per_point) {x y : ℚ}
    (h : x ≤ y) : f.round_to_pixel x ≤ f.round_to_pixel y := by
  unfold Font.round_to_pixel
  have h2 : round (x * f.pixels_per_point) ≤ round (y * f.pixels_per_point) :=
    round_rat_mono (mul_le_mul_of_nonneg_right h hp.le)
  exact (div_le_div_iff_of_pos_right hp).mpr (by exact_mod_cast h2)

theorem round_to_pixel_fixed (f : Font) (hp : 0 < f.pixels_per_point) (v : ℚ) :
    f.round_to_pixel (f.round_to_pixel v) = f.round_to_pixel v := by
  unfold Font.round_to_pixel
  rw [div_mul_cancel₀ _ (ne_of_gt hp), round_intCast]

theorem round_to_pixel_add_nonneg (f : Font) (hp : 0 < f.pixels_per_point)
    {x δ : ℚ} (hx : ∃ v, x = f.round_to_pixel v) (hδ : 0 ≤ δ) :
    x ≤ f.round_to_pixel (x + δ) := by
  obtain ⟨v, rfl⟩ := hx
  calc f.round_to_pixel v
      = f.round_to_pixel (f.round_to_pixel v) := (round_to_pixel_fixed f hp v).symm
    _ ≤ f.round_to_pixel (f.round_to_pixel v + δ) :=
        round_to_pixel_mono f hp (by linarith)

/-! ## Fragment layout lemmas -/

theorem fragAux_length (f : Font) (t : List Char) :
    ∀ (cur : ℚ) (last : Option GlyphId), (fragAux f cur last t).length = t.length := by
  induction t with
  | nil => intro cur last; simp [fragAux]
  | cons c cs ih => intro cur last; simp [fragAux, ih]

theorem layout_single_line_fragment_length (f : Font) (t : List Char) :
    (f.layout_single_line_fragment t).length = t.length + 1 := by
  simp [Font.layout_single_line_fragment, fragAux_length]

theorem kernAt_cons (f : Font) (c : Char) (cs : List Char)
    (last : Option GlyphId) (j : ℕ) :
    kernAt f (some (f.glyph c).id) cs j = kernAt f last (c :: cs) (j + 1) := by
  cases j with
  | zero => simp [kernAt]
  | succ k => simp [kernAt]

theorem fragAux_getD_step (f : Font) :
    ∀ (t : List Char) (cur : ℚ) (last : Option GlyphId) (i : ℕ), i < t.length →
      (cur :: fragAux f cur last t).getD (i + 1) 0 =
        f.round_to_pixel ((cur :: fragAux f cur last t).getD i 0 +
          kernAt f last t i + (f.glyph (t.getD i ' ')).advance_width) := by
  intro t
  induction t with
  | nil => intro cur last i hi; simp at hi
  | cons c cs ih =>
    intro cur last i hi
    cases i with
    | zero =>
      cases last <;> simp [fragAux, kernAt]
    | succ j =>
      have hj : j < cs.length := by simpa using hi
      have step := ih (f.round_to_pixel (cur +
          (match last with
           | some lg => f.pair_kerning lg (f.glyph c).id / f.pixels_per_point
           | none => 0) + (f.glyph c).advance_width)) (some (f.glyph c).id) j hj
      rw [← kernAt_cons f c cs last j] at *
      simpa [fragAux] using step

/-- C8: for text free of `'\n'`, `layout_single_line_fragment` returns
`chars + 1` offsets, the first is `0.0`, and each subsequent offset is the
previous accumulated cursor plus the pair-kerning adjustment with the previous
glyph (`0` for the first character) plus the current glyph's advance width,
snapped with `round_to_pixel`. -/
theorem single_line_fragment_spec (f : Font) (t : List Char) (h : '\n' ∉ t) :
    (f.layout_single_line_fragment t).length = t.length + 1 ∧
    (f.layout_single_line_fragment t).getD 0 0 = 0 ∧
    ∀ i, i < t.length →
      (f.layout_single_line_fragment t).getD (i + 1) 0 =
        f.round_to_pixel ((f.layout_single_line_fragment t).getD i 0 +
          kernAt f none t i + (f.glyph (t.getD i ' ')).advance_width) := by
  refine ⟨layout_single_line_fragment_length f t, rfl, ?_⟩
  intro i hi
  exact fragAux_getD_step f t 0 none i hi

/-- C8 witness: the fragment specification instantiated at a concrete font and
text. -/
theorem single_line_fragment_spec_witness :
    '\n' ∉ (['a', 'b'] : List Char) ∧
    ((fUnit.layout_single_line_fragment ['a', 'b']).length = ['a', 'b'].length + 1 ∧
     (fUnit.layout_single_line_fragment ['a', 'b']).getD 0 0 = 0 ∧
     ∀ i, i < (['a', 'b'] : List Char).length →
       (fUnit.layout_single_line_fragment ['a', 'b']).getD (i + 1) 0 =
         fUnit.round_to_pixel ((fUnit.layout_single_line_fragment ['a', 'b']).getD i 0 +
           kernAt fUnit none ['a', 'b'] i +
           (fUnit.glyph ((['a', 'b'] : List Char).getD i ' ')).advance_width)) :=
  ⟨by decide, single_line_fragment_spec fUnit ['a', 'b'] (by decide)⟩

theorem fragAux_chain (f : Font) (hv : f.validMetrics) :
    ∀ (t : List Char) (cur : ℚ) (last : Option GlyphId),
      (∃ v, cur = f.round_to_pixel v) →
      List.Chain' (· ≤ ·) (cur :: fragAux f cur last t) := by
  intro t
  induction t with
  | nil => intro cur last _; simp [fragAux]
  | cons c cs ih =>
    intro cur last hcur
    cases last with
    | none =>
      simp only [fragAux]
      refine List.chain'_cons.mpr ⟨?_, ih _ _ ⟨_, rfl⟩⟩
      have h := round_to_pixel_add_nonneg f hv.1 hcur
        (add_nonneg le_rfl (hv.2.1 c) : (0 : ℚ) ≤ 0 + (f.glyph c).advance_width)
      rwa [← add_assoc] at h
    | some lg =>
      simp only [fragAux]
      refine List.chain'_cons.mpr ⟨?_, ih _ _ ⟨_, rfl⟩⟩
      have h := round_to_pixel_add_nonneg f hv.1 hcur (hv.2.2 lg c)
      rwa [← add_assoc] at h

theorem layout_single_line_fragment_chain (f : Font) (hv : f.validMetrics)
    (t : List Char) : List.Chain' (· ≤ ·) (f.layout_single_line_fragment t) := by
  have h0 : (0 : ℚ) = f.round_to_pixel 0 := by
    simp [Font.round_to_pixel]
  exact fragAux_chain f hv t 0 none ⟨0, h0⟩

/-! ## List helpers -/

theorem headD_eq_getD_zero {α : Type} (l : List α) (d : α) :
    l.headD d = l.getD 0 d := by
  cases l <;> simp

theorem head?_take_of_pos {α : Type} (l : List α) (b : ℕ) (hb : 1 ≤ b) :
    (l.take b).head? = l.head? := by
  cases l with
  | nil => simp
  | cons x xs =>
    cases b with
    | zero => omega
    | succ n => simp

theorem head?_drop_getD (l : List ℚ) (a : ℕ) (ha : a < l.length) :
    (l.drop a).head? = some (l.getD a 0) := by
  induction l generalizing a with
  | nil => simp at ha
  | cons x xs ih =>
    cases a with
    | zero => simp
    | succ n =>
      simp only [List.drop_succ_cons, List.getD_cons_succ]
      exact ih n (by simpa using ha)

/-- The structural consequences, for a slice of the full offset list shifted
back to the line's origin, needed for the per-line `x_offsets` invariants. -/
theorem slice_xoffsets_props (full : List ℚ) (a b : ℕ)
    (hab : a + b ≤ full.length) (hb : 1 ≤ b) :
    ((full.drop a).take b).map (fun v => v - full.getD a 0) ≠ [] ∧
    (((full.drop a).take b).map (fun v => v - full.getD a 0)).head? = some 0 ∧
    (List.Chain' (· ≤ ·) full →
      List.Chain' (· ≤ ·) (((full.drop a).take b).map (fun v => v - full.getD a 0))) := by
  have ha : a < full.length := by omega
  have hlen : ((full.drop a).take b).length = min b (full.length - a) := by
    simp
  refine ⟨?_, ?_, ?_⟩
  · intro hnil
    have := congrArg List.length hnil
    simp at this
    omega
  · rw [List.head?_map, head?_take_of_pos _ b hb, head?_drop_getD full a ha]
    simp
  · intro hchain
    exact List.chain'_map_of_chain' _ (fun p q (h : p ≤ q) => by simpa using h)
      ((hchain.drop a).take b)

/-! ## Paragraph wrap loop invariants -/

theorem sumExcl_append (ls1 ls2 : List Line) :
    sumExcl (ls1 ++ ls2) = sumExcl ls1 + sumExcl ls2 := by
  simp [sumExcl]

theorem paraStep_inv (f : Font) (mw : ℚ) (full : List ℚ) (i : ℕ) (x : ℚ)
    (chr : Char) (s : ParaState) (hinv : ParaInv full i s)
    (hi : i + 2 ≤ full.length) :
    ParaInv full (i + 1) (paraStep f mw full i x chr s) := by
  obtain ⟨h1, h2, h3, h4, h5, h6, h7⟩ := hinv
  have base : ∀ s' : ParaState,
      s'.line_start_idx ≤ i + 1 →
      (∀ j, s'.last_space = some j → s'.line_start_idx ≤ j ∧ j < i + 1) →
      s'.line_start_x = full.getD s'.line_start_idx 0 →
      sumExcl s'.out_lines = s'.line_start_idx →
      (∀ l ∈ s'.out_lines, l.ends_with_newline = false) →
      (s'.line_start_idx ≠ 0 → s'.out_lines ≠ []) →
      (∀ l ∈ s'.out_lines, ∃ a b, a + b ≤ full.length ∧ 1 ≤ b ∧
        l.x_offsets = ((full.drop a).take b).map (fun v => v - full.getD a 0)) →
      ParaInv full (i + 1) s' :=
    fun s' a b c d e g k => ⟨a, b, c, d, e, g, k⟩
  unfold paraStep spaceStep
  set s1 := cutStep f mw full x s with hs1
  have hcut : (s1 = s ∧ s1.last_space = s.last_space) ∨
      (∃ lsi, s.last_space = some lsi ∧
        s1.line_start_idx = lsi + 1 ∧
        s1.last_space = none ∧
        s1.line_start_x = full.getD (lsi + 1) 0 ∧
        s1.out_lines = s.out_lines ++
          [⟨((full.drop s.line_start_idx).take (lsi + 2 - s.line_start_idx)).map
              (fun v => v - s.line_start_x),
            s.cursor_y, s.cursor_y + f.height, false⟩]) := by
    rw [hs1]
    unfold cutStep
    by_cases hx : x - s.line_start_x > mw
    · rw [if_pos hx]
      cases hls : s.last_space with
      | none => exact Or.inl ⟨rfl, by simp [hls]⟩
      | some lsi => exact Or.inr ⟨lsi, rfl, rfl, rfl, rfl, rfl⟩
    · rw [if_neg hx]
      exact Or.inl ⟨rfl, rfl⟩
  have hinv1 : ParaInv full (i + 1) s1 ∧ s1.line_start_idx ≤ i := by
    rcases hcut with ⟨heq, _⟩ | ⟨lsi, hls, ha, hb, hc, hd⟩
    · rw [heq]
      exact ⟨⟨Nat.le_succ_of_le h1, fun j hj => ⟨(h2 j hj).1, Nat.lt_succ_of_lt (h2 j hj).2⟩,
        h3, h4, h5, h6, h7⟩, h1⟩
    · obtain ⟨hle, hlt⟩ := h2 lsi hls
      have hfit : lsi + 2 ≤ full.length := by omega
      have hslice_len :
          (((full.drop s.line_start_idx).take (lsi + 2 - s.line_start_idx)).map
            (fun v => v - s.line_start_x)).length = lsi + 2 - s.line_start_idx := by
        simp only [List.length_map, List.length_take, List.length_drop]
        omega
      refine ⟨⟨?_, ?_, ?_, ?_, ?_, ?_, ?_⟩, ?_⟩
      · omega
      · intro j hj; rw [hb] at hj; exact absurd hj (by simp)
      · rw [ha, hc]
      · rw [hd, sumExcl_append, h4, ha]
        simp only [sumExcl, List.map_cons, List.map_nil, List.sum_cons, List.sum_nil,
          Line.char_count_excluding_newline]
        rw [hslice_len]
        omega
      · intro l hl
        rw [hd] at hl
        rcases List.mem_append.mp hl with hmem | hmem
        · exact h5 l hmem
        · simp at hmem; rw [hmem]
      · intro _; rw [hd]; simp
      · intro l hl
        rw [hd] at hl
        rcases List.mem_append.mp hl with hmem | hmem
        · exact h7 l hmem
        · simp only [List.mem_singleton] at hmem
          refine ⟨s.line_start_idx, lsi + 2 - s.line_start_idx, by omega, by omega, ?_⟩
          rw [hmem, h3]
      · omega
  obtain ⟨⟨g1, g2, g3, g4, g5, g6, g7⟩, gle⟩ := hinv1
  split
  · refine base _ (Nat.le_succ_of_le gle) ?_ g3 g4 g5 g6 g7
    intro j hj
    simp only [Option.some.injEq] at hj
    subst hj
    exact ⟨gle, Nat.lt_succ_self i⟩
  · exact ⟨g1, g2, g3, g4, g5, g6, g7⟩

theorem paraLoop_inv (f : Font) (mw : ℚ) (full : List ℚ) :
    ∀ (l : List (ℚ × Char)) (i : ℕ) (s : ParaState),
      i + l.length + 1 = full.length → ParaInv full i s →
      ParaInv full (i + l.length) (paraLoop f mw full i l s) := by
  intro l
  induction l with
  | nil => intro i s _ h; simpa using h
  | cons p rest ih =>
    intro i s hlen hinv
    obtain ⟨x, chr⟩ := p
    have h2 : i + 2 ≤ full.length := by
      simp only [List.length_cons] at hlen; omega
    have hstep := paraStep_inv f mw full i x chr s hinv h2
    have hrec := ih (i + 1) _ (by simp only [List.length_cons] at hlen; omega) hstep
    simp only [paraLoop, List.length_cons]
    have : i + (rest.length + 1) = i + 1 + rest.length := by omega
    rw [this]
    exact hrec

theorem paraInv_init (full : List ℚ) :
    ParaInv full 0 ⟨full.headD 0, 0, 0, none, []⟩ := by
  refine ⟨le_rfl, fun j hj => by simp at hj, ?_, by simp [sumExcl], by simp, by simp, by simp⟩
  exact headD_eq_getD_zero full 0

/-- The result of `layout_paragraph_max_width` on a non-empty paragraph:
the final state of the wrap loop satisfies the loop invariant at the end of
the text, and the function's value is the final flush of that state. -/
theorem layout_paragraph_final (f : Font) (t : List Char) (mw : ℚ)
    (ht : t ≠ []) :
    ∃ s : ParaState, ParaInv (f.layout_single_line_fragment t) t.length s ∧
      f.layout_paragraph_max_width t mw =
        (if s.line_start_idx + 1 < (f.layout_single_line_fragment t).length then
          s.out_lines ++
            [⟨((f.layout_single_line_fragment t).drop s.line_start_idx).map
                (fun v => v - s.line_start_x),
              s.cursor_y, s.cursor_y + f.height, false⟩]
        else s.out_lines) := by
  set full := f.layout_single_line_fragment t with hfull
  have hlenfull : full.length = t.length + 1 := layout_single_line_fragment_length f t
  have hziplen : ((full.drop 1).zip t).length = t.length := by
    simp [List.length_zip, hlenfull]
  refine ⟨paraLoop f mw full 0 ((full.drop 1).zip t) ⟨full.headD 0, 0, 0, none, []⟩,
    ?_, ?_⟩
  · have := paraLoop_inv f mw full ((full.drop 1).zip t) 0
      ⟨full.headD 0, 0, 0, none, []⟩ (by omega) (paraInv_init full)
    rwa [hziplen, Nat.zero_add] at this
  · unfold Font.layout_paragraph_max_width
    rw [if_neg ht]

/-! ## Paragraph layout lemmas -/

theorem layout_paragraph_sumExcl (f : Font) (t : List Char) (mw : ℚ) :
    sumExcl (f.layout_paragraph_max_width t mw) = t.length := by
  by_cases ht : t = []
  · subst ht
    simp [Font.layout_paragraph_max_width, sumExcl, Line.char_count_excluding_newline]
  · obtain ⟨s, hinv, heq⟩ := layout_paragraph_final f t mw ht
    obtain ⟨h1, _, _, h4, _, _, _⟩ := hinv
    have hlenfull : (f.layout_single_line_fragment t).length = t.length + 1 :=
      layout_single_line_fragment_length f t
    rw [heq]
    split
    · next hlt =>
      rw [sumExcl_append, h4]
      simp only [sumExcl, List.map_cons, List.map_nil, List.sum_cons, List.sum_nil,
        Line.char_count_excluding_newline, List.length_map, List.length_drop]
      omega
    · next hge => omega

theorem layout_paragraph_flags (f : Font) (t : List Char) (mw : ℚ) :
    ∀ l ∈ f.layout_paragraph_max_width t mw, l.ends_with_newline = false := by
  by_cases ht : t = []
  · subst ht
    intro l hl
    simp [Font.layout_paragraph_max_width] at hl
    rw [hl]
  · obtain ⟨s, hinv, heq⟩ := layout_paragraph_final f t mw ht
    obtain ⟨_, _, _, _, h5, _, _⟩ := hinv
    intro l hl
    rw [heq] at hl
    split at hl
    · rcases List.mem_append.mp hl with hmem | hmem
      · exact h5 l hmem
      · simp only [List.mem_singleton] at hmem; rw [hmem]
    · exact h5 l hl

theorem layout_paragraph_ne_nil (f : Font) (t : List Char) (mw : ℚ) :
    f.layout_paragraph_max_width t mw ≠ [] := by
  by_cases ht : t = []
  · subst ht
    simp [Font.layout_paragraph_max_width]
  · obtain ⟨s, hinv, heq⟩ := layout_paragraph_final f t mw ht
    obtain ⟨h1, _, _, _, _, h6, _⟩ := hinv
    have hlenfull : (f.layout_single_line_fragment t).length = t.length + 1 :=
      layout_single_line_fragment_length f t
    have htlen : 1 ≤ t.length := by
      cases t with
      | nil => exact absurd rfl ht
      | cons c cs => simp
    rw [heq]
    split
    · simp
    · next hge =>
      have : s.line_start_idx ≠ 0 := by omega
      exact h6 this

theorem layout_paragraph_xoffsets (f : Font) (t : List Char) (mw : ℚ) :
    ∀ l ∈ f.layout_paragraph_max_width t mw,
      l.x_offsets ≠ [] ∧ l.x_offsets.head? = some 0 ∧
      (f.validMetrics → List.Chain' (· ≤ ·) l.x_offsets) := by
  by_cases ht : t = []
  · subst ht
    intro l hl
    simp [Font.layout_paragraph_max_width] at hl
    rw [hl]
    refine ⟨by simp, by simp, fun _ => by simp⟩
  · obtain ⟨s, hinv, heq⟩ := layout_paragraph_final f t mw ht
    obtain ⟨h1, _, h3, _, _, _, h7⟩ := hinv
    have hlenfull : (f.layout_single_line_fragment t).length = t.length + 1 :=
      layout_single_line_fragment_length f t
    intro l hl
    rw [heq] at hl
    have slice_case : ∀ a b, a + b ≤ (f.layout_single_line_fragment t).length → 1 ≤ b →
        l.x_offsets = (((f.layout_single_line_fragment t).drop a).take b).map
          (fun v => v - (f.layout_single_line_fragment t).getD a 0) →
        l.x_offsets ≠ [] ∧ l.x_offsets.head? = some 0 ∧
          (f.validMetrics → List.Chain' (· ≤ ·) l.x_offsets) := by
      intro a b hab hb hx
      obtain ⟨p1, p2, p3⟩ := slice_xoffsets_props (f.layout_single_line_fragment t) a b hab hb
      rw [hx]
      exact ⟨p1, p2, fun hv => p3 (layout_single_line_fragment_chain f hv t)⟩
    split at hl
    · next hlt =>
      rcases List.mem_append.mp hl with hmem | hmem
      · obtain ⟨a, b, hab, hb, hx⟩ := h7 l hmem
        exact slice_case a b hab hb hx
      · simp only [List.mem_singleton] at hmem
        have hdrop : (f.layout_single_line_fragment t).drop s.line_start_idx =
            ((f.layout_single_line_fragment t).drop s.line_start_idx).take
              ((f.layout_single_line_fragment t).length - s.line_start_idx) := by
          rw [← List.length_drop, List.take_length]
        refine slice_case s.line_start_idx
          ((f.layout_single_line_fragment t).length - s.line_start_idx)
          (by omega) (by omega) ?_
        rw [hmem, h3, ← hdrop]
    · obtain ⟨a, b, hab, hb, hx⟩ := h7 l hl
      exact slice_case a b hab hb hx

/-! ## Support lemmas for `setLastNewline`, vertical offsetting, paragraph split -/

theorem setLastNewline_length (ls : List Line) (b : Bool) :
    (setLastNewline ls b).length = ls.length := by
  induction ls with
  | nil => simp [setLastNewline]
  | cons l tail ih =>
    cases tail with
    | nil => simp [setLastNewline]
    | cons l2 ls2 => simpa [setLastNewline] using ih

theorem setLastNewline_ne_nil (ls : List Line) (b : Bool) (h : ls ≠ []) :
    setLastNewline ls b ≠ [] := by
  intro hc
  have := congrArg List.length hc
  rw [setLastNewline_length] at this
  exact h (List.length_eq_zero.mp (by simpa using this))

theorem mem_setLastNewline (ls : List Line) (b : Bool) :
    ∀ l ∈ setLastNewline ls b, ∃ l0 ∈ ls, l.x_offsets = l0.x_offsets := by
  induction ls with
  | nil => simp [setLastNewline]
  | cons l tail ih =>
    cases tail with
    | nil =>
      intro l2 hl2
      simp only [setLastNewline, List.mem_singleton] at hl2
      exact ⟨l, by simp, by rw [hl2]⟩
    | cons lb ls2 =>
      intro l2 hl2
      simp only [setLastNewline, List.mem_cons] at hl2
      rcases hl2 with h | h
      · exact ⟨l, by simp, by rw [h]⟩
      · obtain ⟨l0, hl0, hx⟩ := ih l2 h
        exact ⟨l0, List.mem_cons_of_mem _ hl0, hx⟩

theorem sumIncl_setLastNewline (ls : List Line) (b : Bool)
    (hflags : ∀ l ∈ ls, l.ends_with_newline = false) (hne : ls ≠ []) :
    sumIncl (setLastNewline ls b) = sumExcl ls + (if b then 1 else 0) := by
  induction ls with
  | nil => exact absurd rfl hne
  | cons l tail ih =>
    cases tail with
    | nil =>
      simp [setLastNewline, sumIncl, sumExcl, Line.char_count_including_newline,
        Line.char_count_excluding_newline]
    | cons l2 ls2 =>
      have hl : l.ends_with_newline = false := hflags l (by simp)
      have hrest := ih (fun l hl => hflags l (List.mem_cons_of_mem _ hl)) (by simp)
      show sumIncl (l :: setLastNewline (l2 :: ls2) b) = _
      simp only [sumIncl, List.map_cons, List.sum_cons]
      simp only [sumIncl] at hrest
      rw [hrest]
      simp only [sumExcl, List.map_cons, List.sum_cons,
        Line.char_count_including_newline, hl]
      simp only [Bool.false_eq_true, if_false]
      omega

theorem countTrue_setLastNewline (ls : List Line) (b : Bool)
    (hflags : ∀ l ∈ ls, l.ends_with_newline = false) (hne : ls ≠ []) :
    (setLastNewline ls b).countP (fun l => l.ends_with_newline) =
      (if b then 1 else 0) := by
  induction ls with
  | nil => exact absurd rfl hne
  | cons l tail ih =>
    cases tail with
    | nil =>
      cases b <;> simp [setLastNewline, List.countP_cons]
    | cons l2 ls2 =>
      have hl : l.ends_with_newline = false := hflags l (by simp)
      have hrest := ih (fun l hl => hflags l (List.mem_cons_of_mem _ hl)) (by simp)
      simp only [setLastNewline, List.countP_cons, hl, hrest]
      simp

theorem getLast?_setLastNewline (ls : List Line) (b : Bool) (hne : ls ≠ []) :
    (setLastNewline ls b).getLast?.map (fun l => l.ends_with_newline) = some b := by
  induction ls with
  | nil => exact absurd rfl hne
  | cons l tail ih =>
    cases tail with
    | nil => simp [setLastNewline]
    | cons l2 ls2 =>
      have hrest := ih (by simp)
      have hne2 : setLastNewline (l2 :: ls2) b ≠ [] := setLastNewline_ne_nil _ _ (by simp)
      obtain ⟨x, xs, hx⟩ : ∃ x xs, setLastNewline (l2 :: ls2) b = x :: xs := by
        cases hc : setLastNewline (l2 :: ls2) b with
        | nil => exact absurd hc hne2
        | cons x xs => exact ⟨x, xs, rfl⟩
      show ((l :: setLastNewline (l2 :: ls2) b).getLast?.map
        (fun l => l.ends_with_newline)) = some b
      rw [hx, List.getLast?_cons_cons, ← hx, hrest]

theorem sumIncl_append (ls1 ls2 : List Line) :
    sumIncl (ls1 ++ ls2) = sumIncl ls1 + sumIncl ls2 := by
  simp [sumIncl]

theorem sumIncl_map_offset (cy : ℚ) (ls : List Line) :
    sumIncl (ls.map (fun l =>
      { l with y_min := l.y_min + cy, y_max := l.y_max + cy })) = sumIncl ls := by
  simp only [sumIncl, List.map_map]
  rfl

theorem countTrue_map_offset (cy : ℚ) (ls : List Line) :
    (ls.map (fun l => { l with y_min := l.y_min + cy, y_max := l.y_max + cy })).countP
        (fun l => l.ends_with_newline) =
      ls.countP (fun l => l.ends_with_newline) := by
  rw [List.countP_map]
  rfl

theorem getLast_flag_map_offset (cy : ℚ) (ls : List Line) :
    ((ls.map (fun l => { l with y_min := l.y_min + cy, y_max := l.y_max + cy })).getLast?.map
        (fun l => l.ends_with_newline)) =
      (ls.getLast?.map (fun l => l.ends_with_newline)) := by
  rw [List.getLast?_map, Option.map_map]
  rfl

theorem dropWhile_head_not {α : Type} (p : α → Bool) (l : List α) :
    ∀ x xs, l.dropWhile p = x :: xs → p x = false := by
  induction l with
  | nil => intro x xs h; simp at h
  | cons c cs ih =>
    intro x xs h
    rw [List.dropWhile_cons] at h
    split at h
    · exact ih x xs h
    · next hc =>
      obtain ⟨rfl, _⟩ := List.cons.injEq .. ▸ h
      injection h with h1 _
      rw [← h1]
      exact Bool.not_eq_true _ ▸ (by simpa using hc)

/-! ## Multiline layout lemmas -/

theorem multiline_sumIncl (f : Font) (mw : ℚ) :
    ∀ (n : ℕ) (t : List Char), t.length ≤ n → ∀ cy : ℚ,
      sumIncl (multilineParas f mw t cy).1 = t.length := by
  intro n
  induction n with
  | zero =>
    intro t ht cy
    have : t = [] := List.length_eq_zero.mp (by omega)
    subst this
    simp [multilineParas, sumIncl]
  | succ n ih =>
    intro t ht cy
    cases t with
    | nil => simp [multilineParas, sumIncl]
    | cons c cs =>
      simp only [multilineParas]
      rw [sumIncl_append, sumIncl_map_offset]
      have hpne := layout_paragraph_ne_nil f
        ((c :: cs).takeWhile notNewline) mw
      have hpflags := layout_paragraph_flags f
        ((c :: cs).takeWhile notNewline) mw
      rw [sumIncl_setLastNewline _ _ hpflags hpne, layout_paragraph_sumExcl]
      have htail_len : ((c :: cs).dropWhile notNewline).tail.length ≤ n := by
        have hsuffix := (List.dropWhile_suffix (l := c :: cs) notNewline).length_le
        simp only [List.length_tail]
        simp only [List.length_cons] at ht hsuffix
        omega
      rw [ih _ htail_len]
      have hsplit := List.takeWhile_append_dropWhile (p := notNewline) (l := c :: cs)
      have hlen := congrArg List.length hsplit
      simp only [List.length_append] at hlen
      cases hrest : (c :: cs).dropWhile notNewline with
      | nil =>
        rw [hrest] at hlen
        simp only [List.length_nil, List.length_cons] at hlen
        simp
        omega
      | cons r rt =>
        rw [hrest] at hlen
        simp only [List.length_nil, List.length_cons] at hlen
        simp
        omega

theorem multiline_ne_nil (f : Font) (mw : ℚ) (t : List Char) (ht : t ≠ [])
    (cy : ℚ) : (multilineParas f mw t cy).1 ≠ [] := by
  cases t with
  | nil => exact absurd rfl ht
  | cons c cs =>
    simp only [multilineParas]
    intro hc
    rcases List.append_eq_nil.mp hc with ⟨hmap, _⟩
    have hpne := layout_paragraph_ne_nil f
      ((c :: cs).takeWhile notNewline) mw
    have hsne := setLastNewline_ne_nil
      (f.layout_paragraph_max_width ((c :: cs).takeWhile notNewline) mw)
      (!((c :: cs).dropWhile notNewline).isEmpty) hpne
    exact hsne (List.map_eq_nil_iff.mp hmap)

theorem count_newline_takeWhile (l : List Char) :
    (l.takeWhile notNewline).count '\n' = 0 := by
  rw [List.count_eq_zero]
  intro hmem
  have := List.mem_takeWhile_imp hmem
  simp [notNewline] at this

theorem multiline_countTrue (f : Font) (mw : ℚ) :
    ∀ (n : ℕ) (t : List Char), t.length ≤ n → ∀ cy : ℚ,
      (multilineParas f mw t cy).1.countP (fun l => l.ends_with_newline) =
        t.count '\n' := by
  intro n
  induction n with
  | zero =>
    intro t ht cy
    have : t = [] := List.length_eq_zero.mp (by omega)
    subst this
    simp [multilineParas]
  | succ n ih =>
    intro t ht cy
    cases t with
    | nil => simp [multilineParas]
    | cons c cs =>
      simp only [multilineParas]
      rw [List.countP_append, countTrue_map_offset]
      have hpne := layout_paragraph_ne_nil f ((c :: cs).takeWhile notNewline) mw
      have hpflags := layout_paragraph_flags f ((c :: cs).takeWhile notNewline) mw
      rw [countTrue_setLastNewline _ _ hpflags hpne]
      have htail_len : ((c :: cs).dropWhile notNewline).tail.length ≤ n := by
        have hsuffix := (List.dropWhile_suffix (l := c :: cs) notNewline).length_le
        simp only [List.length_tail]
        simp only [List.length_cons] at ht hsuffix
        omega
      rw [ih _ htail_len]
      have hsplit := List.takeWhile_append_dropWhile (p := notNewline) (l := c :: cs)
      have hcount : (c :: cs).count '\n' =
          ((c :: cs).takeWhile notNewline).count '\n' +
          ((c :: cs).dropWhile notNewline).count '\n' := by
        conv_lhs => rw [← hsplit]
        rw [List.count_append]
      rw [hcount, count_newline_takeWhile]
      cases hrest : (c :: cs).dropWhile notNewline with
      | nil => simp
      | cons r rt =>
        have hr : notNewline r = false := dropWhile_head_not _ _ _ _ hrest
        have hr2 : r = '\n' := by simpa [notNewline] using hr
        subst hr2
        simp [List.count_cons]
        omega

theorem multiline_last_flag (f : Font) (mw : ℚ) :
    ∀ (n : ℕ) (t : List Char), t.length ≤ n → t ≠ [] →
      t.getLast? ≠ some '\n' → ∀ cy : ℚ,
      ((multilineParas f mw t cy).1.getLast?.map (fun l => l.ends_with_newline)) =
        some false := by
  intro n
  induction n with
  | zero =>
    intro t ht hne
    exact absurd (List.length_eq_zero.mp (by omega)) hne
  | succ n ih =>
    intro t ht hne hlast cy
    cases t with
    | nil => exact absurd rfl hne
    | cons c cs =>
      have hpne := layout_paragraph_ne_nil f ((c :: cs).takeWhile notNewline) mw
      have hsplit := List.takeWhile_append_dropWhile (p := notNewline) (l := c :: cs)
      simp only [multilineParas]
      cases hrest : (c :: cs).dropWhile notNewline with
      | nil =>
        simp only [List.tail_nil, List.isEmpty_nil, multilineParas, List.append_nil]
        rw [getLast_flag_map_offset]
        simpa using getLast?_setLastNewline _ _ hpne
      | cons r rt =>
        have hr : notNewline r = false := dropWhile_head_not _ _ _ _ hrest
        have hr2 : r = '\n' := by simpa [notNewline] using hr
        subst hr2
        rw [hrest] at hsplit
        by_cases hrt : rt = []
        · subst hrt
          have : (c :: cs).getLast? = some '\n' := by
            rw [← hsplit, List.getLast?_append_of_ne_nil _ (by simp)]
            simp
          exact absurd this hlast
        · simp only [List.tail_cons]
          rw [List.getLast?_append_of_ne_nil _ (multiline_ne_nil f mw rt hrt _)]
          have hrtlen : rt.length ≤ n := by
            have hsuffix := (List.dropWhile_suffix (l := c :: cs) notNewline).length_le
            rw [hrest] at hsuffix
            simp only [List.length_cons] at ht hsuffix
            omega
          have hrtlast : rt.getLast? ≠ some '\n' := by
            intro hc
            apply hlast
            rw [← hsplit, List.getLast?_append_of_ne_nil _ (by simp),
              show ('\n' :: rt) = ['\n'] ++ rt from rfl,
              List.getLast?_append_of_ne_nil _ hrt]
            exact hc
          exact ih rt hrtlen hrt hrtlast _

theorem multiline_xoffsets (f : Font) (mw : ℚ) :
    ∀ (n : ℕ) (t : List Char), t.length ≤ n → ∀ (cy : ℚ) (l : Line),
      l ∈ (multilineParas f mw t cy).1 →
      l.x_offsets ≠ [] ∧ l.x_offsets.head? = some 0 ∧
        (f.validMetrics → List.Chain' (· ≤ ·) l.x_offsets) := by
  intro n
  induction n with
  | zero =>
    intro t ht cy l hl
    have : t = [] := List.length_eq_zero.mp (by omega)
    subst this
    simp [multilineParas] at hl
  | succ n ih =>
    intro t ht cy l hl
    cases t with
    | nil => simp [multilineParas] at hl
    | cons c cs =>
      simp only [multilineParas, List.mem_append] at hl
      rcases hl with hl | hl
      · obtain ⟨l1, hl1, rfl⟩ := List.mem_map.mp hl
        obtain ⟨l0, hl0, hx⟩ := mem_setLastNewline _ _ l1 hl1
        have hprops := layout_paragraph_xoffsets f _ mw l0 hl0
        show l1.x_offsets ≠ [] ∧ l1.x_offsets.head? = some 0 ∧ _
        rw [hx]
        exact hprops
      · have htail_len : ((c :: cs).dropWhile notNewline).tail.length ≤ n := by
          have hsuffix := (List.dropWhile_suffix (l := c :: cs) notNewline).length_le
          simp only [List.length_tail]
          simp only [List.length_cons] at ht hsuffix
          omega
        exact ih _ htail_len _ l hl

theorem xoff_len_of_ne_nil (l : Line) (h : l.x_offsets ≠ []) :
    l.x_offsets.length = l.char_count_excluding_newline + 1 := by
  have := List.length_pos.mpr h
  simp only [Line.char_count_excluding_newline]
  omega

/-- C1: for every input text and wrap width, the galley of `layout_multiline`
(and of `layout_single_line`) has `galley.text` equal to the input and the sum
over its lines of `char_count_including_newline` equal to the character count
of `galley.text`. -/
theorem layout_char_count_complete (f : Font) (t : List Char) (mw : ℚ) :
    sumIncl (f.layout_multiline t mw).lines = (f.layout_multiline t mw).text.length ∧
    (f.layout_multiline t mw).text = t ∧
    sumIncl (f.layout_single_line t).lines = (f.layout_single_line t).text.length ∧
    (f.layout_single_line t).text = t := by
  refine ⟨?_, rfl, ?_, rfl⟩
  · show sumIncl (f.layout_multiline t mw).lines = t.length
    have hsum := multiline_sumIncl f mw t.length t le_rfl 0
    simp only [Font.layout_multiline]
    split
    · rw [sumIncl_append, hsum]
      simp [sumIncl, Line.char_count_including_newline, Line.char_count_excluding_newline]
    · exact hsum
  · show sumIncl (f.layout_single_line t).lines = t.length
    simp [Font.layout_single_line, sumIncl, Line.char_count_including_newline,
      Line.char_count_excluding_newline, layout_single_line_fragment_length]

/-- C9: for every galley produced by the layout entry points (here under the
sanity conditions `validMetrics` on the abstract font metrics), every line's
`x_offsets` is non-empty, starts at `0` relative to the line's origin, is
non-decreasing, and has length `char_count_excluding_newline + 1`. -/
theorem x_offsets_invariants (f : Font) (hv : f.validMetrics) (t : List Char)
    (mw : ℚ) :
    (∀ l ∈ (f.layout_multiline t mw).lines,
      l.x_offsets ≠ [] ∧ l.x_offsets.head? = some 0 ∧
      List.Chain' (· ≤ ·) l.x_offsets ∧
      l.x_offsets.length = l.char_count_excluding_newline + 1) ∧
    (∀ l ∈ (f.layout_single_line t).lines,
      l.x_offsets ≠ [] ∧ l.x_offsets.head? = some 0 ∧
      List.Chain' (· ≤ ·) l.x_offsets ∧
      l.x_offsets.length = l.char_count_excluding_newline + 1) := by
  constructor
  · intro l hl
    simp only [Font.layout_multiline] at hl
    have hbase : l ∈ (multilineParas f mw t 0).1 ∨
        l = (⟨[0], (multilineParas f mw t 0).2,
          (multilineParas f mw t 0).2 + f.line_spacing, false⟩ : Line) := by
      split at hl
      · rcases List.mem_append.mp hl with hm | hm
        · exact Or.inl hm
        · exact Or.inr (by simpa using hm)
      · exact Or.inl hl
    rcases hbase with hm | rfl
    · obtain ⟨p1, p2, p3⟩ := multiline_xoffsets f mw t.length t le_rfl 0 l hm
      exact ⟨p1, p2, p3 hv, xoff_len_of_ne_nil l p1⟩
    · refine ⟨by simp, by simp, by simp, ?_⟩
      simp [Line.char_count_excluding_newline]
  · intro l hl
    simp only [Font.layout_single_line, List.mem_singleton] at hl
    subst hl
    refine ⟨by simp [Font.layout_single_line_fragment], rfl,
      layout_single_line_fragment_chain f hv t, ?_⟩
    exact xoff_len_of_ne_nil _ (by simp [Font.layout_single_line_fragment])

/-- C9 witness: the invariants instantiated at a concrete valid font. -/
theorem x_offsets_invariants_witness :
    fUnit.validMetrics ∧
    ((∀ l ∈ (fUnit.layout_multiline ['a', 'b'] 5).lines,
      l.x_offsets ≠ [] ∧ l.x_offsets.head? = some 0 ∧
      List.Chain' (· ≤ ·) l.x_offsets ∧
      l.x_offsets.length = l.char_count_excluding_newline + 1) ∧
    (∀ l ∈ (fUnit.layout_single_line ['a', 'b']).lines,
      l.x_offsets ≠ [] ∧ l.x_offsets.head? = some 0 ∧
      List.Chain' (· ≤ ·) l.x_offsets ∧
      l.x_offsets.length = l.char_count_excluding_newline + 1)) := by
  have hv : fUnit.validMetrics := by
    refine ⟨by norm_num [fUnit], fun c => by norm_num [fUnit], fun g c => by norm_num [fUnit]⟩
  exact ⟨hv, x_offsets_invariants fUnit hv ['a', 'b'] 5⟩

/-- C10: for every paragraph text free of `'\n'` (and in fact for every text),
`layout_paragraph_max_width` returns at least one line, so the assertion in
`layout_multiline` that a paragraph produced lines, and its `last()` unwraps,
cannot fail. -/
theorem paragraph_lines_nonempty (f : Font) (t : List Char) (mw : ℚ)
    (h : '\n' ∉ t) : f.layout_paragraph_max_width t mw ≠ [] :=
  layout_paragraph_ne_nil f t mw

/-- C10 witness. -/
theorem paragraph_lines_nonempty_witness :
    '\n' ∉ (['a', ' ', 'b'] : List Char) ∧
    fUnit.layout_paragraph_max_width ['a', ' ', 'b'] 1 ≠ [] :=
  ⟨by decide, paragraph_lines_nonempty fUnit ['a', ' ', 'b'] 1 (by decide)⟩

/-! ## Loop-identity lemmas for unbreakable paragraphs -/

theorem cutStep_no_space (f : Font) (mw : ℚ) (full : List ℚ) (x : ℚ)
    (s : ParaState) (h : s.last_space = none) : cutStep f mw full x s = s := by
  unfold cutStep
  split
  · rw [h]
  · rfl

theorem spaceStep_no_ws (i : ℕ) (chr : Char) (s : ParaState)
    (h : ¬(rustIsWhitespace chr = true ∧ chr ≠ NON_BREAKING_SPACE)) :
    spaceStep i chr s = s := by
  unfold spaceStep
  split
  · next hc => exact absurd (by simpa using hc) h
  · rfl

theorem paraLoop_no_ws (f : Font) (mw : ℚ) (full : List ℚ) :
    ∀ (l : List (ℚ × Char)) (i : ℕ) (s : ParaState), s.last_space = none →
      (∀ p ∈ l, ¬(rustIsWhitespace p.2 = true ∧ p.2 ≠ NON_BREAKING_SPACE)) →
      paraLoop f mw full i l s = s := by
  intro l
  induction l with
  | nil => intro i s _ _; rfl
  | cons p rest ih =>
    intro i s hnone hl
    obtain ⟨x, chr⟩ := p
    have h1 : cutStep f mw full x s = s := cutStep_no_space f mw full x s hnone
    have h2 : spaceStep i chr s = s := spaceStep_no_ws i chr s (hl (x, chr) (by simp))
    show paraLoop f mw full (i + 1) rest (paraStep f mw full i x chr s) = s
    rw [paraStep, h1, h2]
    exact ih (i + 1) s hnone (fun p hp => hl p (by simp [hp]))

/-- C4: a paragraph containing no `'\n'` and no whitespace other than the
non-breaking space is never cut: `layout_paragraph_max_width` returns exactly
one line for every maximum width, even when the line is wider than it. -/
theorem unbreakable_single_line (f : Font) (t : List Char) (mw : ℚ)
    (hn : '\n' ∉ t)
    (hws : ∀ c ∈ t, rustIsWhitespace c = true → c = NON_BREAKING_SPACE) :
    (f.layout_paragraph_max_width t mw).length = 1 := by
  by_cases ht : t = []
  · subst ht
    simp [Font.layout_paragraph_max_width]
  · have htlen : 1 ≤ t.length := by
      cases t with
      | nil => exact absurd rfl ht
      | cons c cs => simp
    have hpairs : ∀ p ∈ ((f.layout_single_line_fragment t).drop 1).zip t,
        ¬(rustIsWhitespace p.2 = true ∧ p.2 ≠ NON_BREAKING_SPACE) := by
      rintro p hp ⟨hw, hne⟩
      exact hne (hws p.2 (List.of_mem_zip hp).2 hw)
    have hloop := paraLoop_no_ws f mw (f.layout_single_line_fragment t)
      (((f.layout_single_line_fragment t).drop 1).zip t) 0
      ⟨(f.layout_single_line_fragment t).headD 0, 0, 0, none, []⟩ rfl hpairs
    simp only [Font.layout_paragraph_max_width, if_neg ht]
    rw [hloop]
    rw [if_pos]
    · simp
    · show 0 + 1 < (f.layout_single_line_fragment t).length
      rw [layout_single_line_fragment_length]
      omega

/-- C4 witness: a two-character non-breaking-space paragraph stays on one line
at maximum width `0`. -/
theorem unbreakable_single_line_witness :
    '\n' ∉ ([NON_BREAKING_SPACE, NON_BREAKING_SPACE] : List Char) ∧
    (∀ c ∈ ([NON_BREAKING_SPACE, NON_BREAKING_SPACE] : List Char),
      rustIsWhitespace c = true → c = NON_BREAKING_SPACE) ∧
    (fUnit.layout_paragraph_max_width [NON_BREAKING_SPACE, NON_BREAKING_SPACE] 0).length = 1 :=
  ⟨by decide, by decide,
    unbreakable_single_line fUnit [NON_BREAKING_SPACE, NON_BREAKING_SPACE] 0
      (by decide) (by decide)⟩

/-- C3: whenever the running width since the current line start exceeds the
maximum and a whitespace wrap candidate exists, the loop body cuts the line:
the completed line is pushed with offsets up to and including the candidate
whitespace character (so that character is its last one: its character count
is `(j + 1) - line_start_idx`), the next line starts at the character right
after the candidate, the candidate is cleared; and every line
`layout_paragraph_max_width` produces has `ends_with_newline = false`. -/
theorem wrap_cut_spec (f : Font) (mw : ℚ) (full : List ℚ) (x : ℚ)
    (s : ParaState) (j : ℕ) (hcand : s.last_space = some j)
    (hover : x - s.line_start_x > mw) :
    ((cutStep f mw full x s).line_start_idx = j + 1 ∧
     (cutStep f mw full x s).last_space = none ∧
     (cutStep f mw full x s).out_lines = s.out_lines ++
       [⟨((full.drop s.line_start_idx).take (j + 2 - s.line_start_idx)).map
           (fun v => v - s.line_start_x),
         s.cursor_y, s.cursor_y + f.height, false⟩] ∧
     (s.line_start_idx ≤ j → j + 2 ≤ full.length →
       (((full.drop s.line_start_idx).take (j + 2 - s.line_start_idx)).map
          (fun v => v - s.line_start_x)).length = ((j + 1) - s.line_start_idx) + 1)) ∧
    (∀ t l, l ∈ f.layout_paragraph_max_width t mw → l.ends_with_newline = false) := by
  constructor
  · unfold cutStep
    rw [if_pos hover, hcand]
    refine ⟨rfl, rfl, rfl, ?_⟩
    intro hle hfit
    simp only [List.length_map, List.length_take, List.length_drop]
    omega
  · intro t l hl
    exact layout_paragraph_flags f t mw l hl

/-- C3 witness: a concrete cut with candidate index `1` in a 3-character
offsets table at maximum width `1`. -/
theorem wrap_cut_spec_witness :
    ((⟨0, 0, 0, some 1, []⟩ : ParaState).last_space = some 1) ∧
    ((3 : ℚ) - (⟨0, 0, 0, some 1, []⟩ : ParaState).line_start_x > 1) ∧
    ((cutStep fUnit 1 [0, 1, 2, 3] 3 ⟨0, 0, 0, some 1, []⟩).line_start_idx = 1 + 1 ∧
     (cutStep fUnit 1 [0, 1, 2, 3] 3 ⟨0, 0, 0, some 1, []⟩).last_space = none) :=
  ⟨rfl, by norm_num, by
    have h := wrap_cut_spec fUnit 1 [0, 1, 2, 3] 3 ⟨0, 0, 0, some 1, []⟩ 1 rfl
      (by norm_num)
    exact ⟨h.1.1, h.1.2.1⟩⟩

/-! ## `char_at` column characterization -/

theorem charAtGo_eq_fallback (x : ℚ) (fb : ℕ) :
    ∀ (lst : List ℚ) (i : ℕ),
      (∀ m, m + 1 < lst.length → ¬ x < midAt lst m) →
      charAtGo x fb i lst = fb := by
  intro lst
  induction lst with
  | nil => intro i _; rfl
  | cons a tail ih =>
    cases tail with
    | nil => intro i _; rfl
    | cons b rest =>
      intro i hno
      show (if x < (1 / 2 : ℚ) * (a + b) then i else charAtGo x fb (i + 1) (b :: rest)) = fb
      rw [if_neg (by simpa [midAt] using hno 0 (by simp))]
      exact ih (i + 1) (fun m hm => by
        have := hno (m + 1) (by simpa using hm)
        simpa [midAt] using this)

theorem charAtGo_eq_of_first (x : ℚ) (fb : ℕ) :
    ∀ (lst : List ℚ) (i m : ℕ), m + 1 < lst.length → x < midAt lst m →
      (∀ k, k < m → ¬ x < midAt lst k) →
      charAtGo x fb i lst = i + m := by
  intro lst
  induction lst with
  | nil => intro i m hm; simp at hm
  | cons a tail ih =>
    cases tail with
    | nil =>
      intro i m hm
      simp at hm
    | cons b rest =>
      intro i m hm hx hfirst
      cases m with
      | zero =>
        show (if x < (1 / 2 : ℚ) * (a + b) then i else charAtGo x fb (i + 1) (b :: rest)) =
          i + 0
        rw [if_pos (by simpa [midAt] using hx)]
        omega
      | succ k =>
        show (if x < (1 / 2 : ℚ) * (a + b) then i else charAtGo x fb (i + 1) (b :: rest)) =
          i + (k + 1)
        rw [if_neg (by simpa [midAt] using hfirst 0 (Nat.succ_pos k))]
        have hrec := ih (i + 1) k (by simpa using hm) (by simpa [midAt] using hx)
          (fun k2 hk2 => by simpa [midAt] using hfirst (k2 + 1) (by omega))
        omega

theorem line_char_at_column_spec (l : Line) (x : ℚ) : ColumnSpec l x := by
  unfold ColumnSpec
  by_cases hex : ∃ m, m + 1 < l.x_offsets.length ∧ x < midAt l.x_offsets m
  · have hm0 := Nat.find_spec hex
    set m := Nat.find hex with hmdef
    have hfirst : ∀ k, k < m → ¬ x < midAt l.x_offsets k := by
      intro k hk hxk
      have hk1 : k + 1 < l.x_offsets.length := by omega
      exact Nat.find_min hex hk ⟨hk1, hxk⟩
    have hval : l.char_at x = m := by
      have := charAtGo_eq_of_first x l.char_count_excluding_newline
        l.x_offsets 0 m hm0.1 hm0.2 hfirst
      simpa [Line.char_at] using this
    rw [hval]
    refine ⟨?_, hfirst, fun _ => hm0.2⟩
    simp only [Line.char_count_excluding_newline]
    omega
  · push_neg at hex
    have hval : l.char_at x = l.char_count_excluding_newline := by
      have := charAtGo_eq_fallback x l.char_count_excluding_newline l.x_offsets 0
        (fun m hm => not_lt.mpr (hex m hm))
      simpa [Line.char_at] using this
    rw [hval]
    refine ⟨le_rfl, ?_, fun hc => absurd hc (lt_irrefl _)⟩
    intro j hj
    refine not_lt.mpr (hex j ?_)
    simp only [Line.char_count_excluding_newline] at hj
    omega

/-! ## `char_at` line-selection loop -/

theorem take_append_le {α : Type} (xs ys : List α) (k : ℕ) (hk : k ≤ xs.length) :
    (xs ++ ys).take k = xs.take k := by
  induction xs generalizing k with
  | nil =>
    have : k = 0 := by simpa using hk
    subst this
    simp
  | cons a tail ih =>
    cases k with
    | zero => simp
    | succ k2 =>
      simp only [List.cons_append, List.take_succ_cons]
      rw [ih k2 (by simpa using hk)]

theorem getD_append_mid {α : Type} (xs ys : List α) (y : α) (d : α) :
    (xs ++ y :: ys).getD xs.length d = y := by
  rw [List.getD_append_right _ _ _ _ le_rfl]
  simp

theorem charAtLoop_run (px py : ℚ) :
    ∀ (suf pre : List Line) (best : Option ℚ) (cursor : GalleyCursor),
      CharAtInv px py pre best cursor →
      ∃ best2, CharAtInv px py (pre ++ suf) best2
          (charAtLoop px py suf pre.length (sumIncl pre) best cursor) ∧
        (best2 = none → best = none ∧ suf = []) := by
  intro suf
  induction suf with
  | nil =>
    intro pre best cursor hinv
    exact ⟨best, by simpa using hinv, fun hb => ⟨hb, rfl⟩⟩
  | cons l ls ih =>
    intro pre best cursor hinv
    have happ : pre ++ l :: ls = (pre ++ [l]) ++ ls := by simp
    have hlen1 : (pre ++ [l]).length = pre.length + 1 := by simp
    have hsum1 : sumIncl (pre ++ [l]) =
        sumIncl pre + l.char_count_including_newline := by
      rw [sumIncl_append]
      simp [sumIncl]
    have hgetD_new : (pre ++ [l]).getD pre.length dfltLine = l :=
      getD_append_mid pre [] l _
    have hgetD_old : ∀ j, j < pre.length →
        (pre ++ [l]).getD j dfltLine = pre.getD j dfltLine :=
      fun j hj => List.getD_append _ _ _ _ hj
    simp only [charAtLoop]
    split
    · next hcond =>
      set d := min |l.y_min - py| |l.y_max - py| with hd
      have hdD : d = yDist l py := rfl
      have hnewinv : CharAtInv px py (pre ++ [l]) (some d)
          ⟨sumIncl pre + l.char_at px, pre.length, l.char_at px⟩ := by
        constructor
        · intro hc; simp at hc
        · intro b hb
          have hbd : b = d := by
            injection hb with h2
            exact h2.symm
          subst hbd
          refine ⟨pre.length, by simp, rfl, ?_, ?_, ?_, ?_, ?_⟩
          · rw [hgetD_new]
            exact hdD.symm
          · intro j hj
            rw [hlen1] at hj
            rcases Nat.lt_succ_iff_lt_or_eq.mp hj with hj2 | hj2
            · rw [hgetD_old j hj2]
              cases hbest : best with
              | none =>
                have hpre := (hinv.1 hbest).1
                rw [hpre] at hj2
                simp at hj2
              | some b0 =>
                obtain ⟨k, hk, _, hkb, hall, _, _, _⟩ := hinv.2 b0 hbest
                have hlt : d < b0 := by
                  rw [hbest] at hcond
                  simpa using hcond
                exact le_of_lt (lt_of_lt_of_le hlt (hall j hj2))
            · subst hj2
              rw [hgetD_new]
              exact le_of_eq hdD
          · intro j hj
            rw [hgetD_old j hj]
            cases hbest : best with
            | none =>
              have hpre := (hinv.1 hbest).1
              rw [hpre] at hj
              simp at hj
            | some b0 =>
              obtain ⟨k, hk, _, hkb, hall, _, _, _⟩ := hinv.2 b0 hbest
              have hlt : d < b0 := by
                rw [hbest] at hcond
                simpa using hcond
              exact lt_of_lt_of_le hlt (hall j hj)
          · rw [hgetD_new]
          · rw [take_append_le pre [l] pre.length le_rfl, List.take_length]
      obtain ⟨b2, hinv2, hnone2⟩ := ih (pre ++ [l]) (some d) _ hnewinv
      rw [hlen1, hsum1] at hinv2
      rw [happ]
      exact ⟨b2, hinv2, fun hb => absurd ((hnone2 hb).1) (by simp)⟩
    · next hcond =>
      cases hbest : best with
      | none =>
        rw [hbest] at hcond
        simp at hcond
      | some b0 =>
        rw [hbest] at hcond
        have hge : b0 ≤ min |l.y_min - py| |l.y_max - py| :=
          not_lt.mp (by simpa using hcond)
        obtain ⟨k, hk, hline, hkb, hall, hstrict, hcol, hidx⟩ := hinv.2 b0 hbest
        have hnewinv : CharAtInv px py (pre ++ [l]) (some b0) cursor := by
          constructor
          · intro hc; simp at hc
          · intro b hb
            have hbb : b = b0 := by
              injection hb with h2
              exact h2.symm
            subst hbb
            refine ⟨k, by rw [hlen1]; omega, hline, ?_, ?_, ?_, ?_, ?_⟩
            · rw [hgetD_old k hk]
              exact hkb
            · intro j hj
              rw [hlen1] at hj
              rcases Nat.lt_succ_iff_lt_or_eq.mp hj with hj2 | hj2
              · rw [hgetD_old j hj2]
                exact hall j hj2
              · subst hj2
                rw [hgetD_new]
                exact hge
            · intro j hj
              rw [hgetD_old j (lt_trans hj hk)]
              exact hstrict j hj
            · rw [hgetD_old k hk]
              exact hcol
            · rw [take_append_le pre [l] k hk.le]
              exact hidx
        obtain ⟨b2, hinv2, hnone2⟩ := ih (pre ++ [l]) (some b0) cursor hnewinv
        rw [hlen1, hsum1] at hinv2
        rw [happ]
        exact ⟨b2, hinv2, fun hb => absurd ((hnone2 hb).1) (by simp)⟩

theorem galley_char_at_selects (g : Galley) (pos : Vec2) (h : g.lines ≠ []) :
    CharAtSpec g pos := by
  have h0 : CharAtInv pos.x pos.y [] none ⟨0, 0, 0⟩ :=
    ⟨fun _ => ⟨rfl, rfl⟩, fun b hb => by simp at hb⟩
  obtain ⟨best2, hinv2, hnone⟩ :=
    charAtLoop_run pos.x pos.y g.lines [] none ⟨0, 0, 0⟩ h0
  simp only [List.nil_append, List.length_nil] at hinv2
  have hsum0 : sumIncl ([] : List Line) = 0 := rfl
  rw [hsum0] at hinv2
  cases hbest : best2 with
  | none =>
    obtain ⟨_, hnil⟩ := hnone hbest
    exact absurd hnil h
  | some b =>
    obtain ⟨k, hk, hline, hkb, hall, hstrict, hcol, hidx⟩ := hinv2.2 b hbest
    refine ⟨k, hk, hline, ?_, ?_, hcol, hidx⟩
    · intro j hj
      rw [show yDist (g.lines.getD k dfltLine) pos.y = b from hkb]
      exact hall j hj
    · intro j hj
      rw [show yDist (g.lines.getD k dfltLine) pos.y = b from hkb]
      exact hstrict j hj

/-- C6: `Galley::char_at(pos)` selects the line minimizing
`min(|y_min - pos.y|, |y_max - pos.y|)` with ties resolved in favour of the
earliest such line; within the selected line the column is `Line::char_at`,
which returns the index of the first consecutive-offset pair whose midpoint
strictly exceeds `pos.x` (a position exactly on a midpoint selects the
following character), falling back to the line's last column, and the column
always lies in `[0, char_count_excluding_newline]`. -/
theorem char_at_spec (g : Galley) (pos : Vec2) :
    (g.lines ≠ [] → CharAtSpec g pos) ∧ (∀ (l : Line) (x : ℚ), ColumnSpec l x) :=
  ⟨fun h => galley_char_at_selects g pos h, fun l x => line_char_at_column_spec l x⟩

/-- C6 witness: the selection specification instantiated at a concrete
two-line galley. -/
theorem char_at_spec_witness :
    gTest.lines ≠ [] ∧ CharAtSpec gTest ⟨3 / 2, 1⟩ :=
  ⟨by decide, (char_at_spec gTest ⟨3 / 2, 1⟩).1 (by decide)⟩

/-! ## `char_start_pos` -/

theorem sumIncl_nil : sumIncl [] = 0 := rfl

theorem sumIncl_cons (l : Line) (ls : List Line) :
    sumIncl (l :: ls) = l.char_count_including_newline + sumIncl ls := by
  simp [sumIncl]

theorem charStartPosLoop_found (ci : ℕ) (fb : Vec2) :
    ∀ (ls : List Line) (cc : ℕ), cc ≤ ci → ci < cc + sumIncl ls →
      ∃ k, k < ls.length ∧
        cc + sumIncl (ls.take k) ≤ ci ∧
        ci < cc + sumIncl (ls.take k) +
          (ls.getD k dfltLine).char_count_including_newline ∧
        charStartPosLoop ci fb cc ls =
          ⟨(ls.getD k dfltLine).x_offsets.getD (ci - (cc + sumIncl (ls.take k))) 0,
           (ls.getD k dfltLine).y_min⟩ := by
  intro ls
  induction ls with
  | nil =>
    intro cc h1 h2
    rw [sumIncl_nil] at h2
    omega
  | cons l rest ih =>
    intro cc h1 h2
    rw [sumIncl_cons] at h2
    by_cases hl : ci < cc + l.char_count_including_newline
    · refine ⟨0, by simp, ?_, ?_, ?_⟩
      · simp only [List.take_zero, sumIncl_nil]
        omega
      · simp only [List.take_zero, sumIncl_nil, List.getD_cons_zero]
        omega
      · show charStartPosLoop ci fb cc (l :: rest) = _
        simp only [charStartPosLoop]
        rw [if_pos ⟨h1, hl⟩]
        simp [sumIncl_nil]
    · push_neg at hl
      have h2c : ci < (cc + l.char_count_including_newline) + sumIncl rest := by
        omega
      obtain ⟨k, hk, ha, hb, hc⟩ := ih (cc + l.char_count_including_newline) hl h2c
      have hsum : sumIncl ((l :: rest).take (k + 1)) =
          l.char_count_including_newline + sumIncl (rest.take k) := by
        rw [List.take_succ_cons, sumIncl_cons]
      have hstep : charStartPosLoop ci fb cc (l :: rest) =
          charStartPosLoop ci fb (cc + l.char_count_including_newline) rest := by
        simp only [charStartPosLoop]
        rw [if_neg]
        rintro ⟨_, hcon⟩
        omega
      refine ⟨k + 1, by simpa using hk, ?_, ?_, ?_⟩
      · rw [hsum]
        omega
      · rw [hsum, List.getD_cons_succ]
        omega
      · rw [hstep, hc, List.getD_cons_succ, hsum, ← Nat.add_assoc]

theorem charStartPosLoop_past (ci : ℕ) (fb : Vec2) :
    ∀ (ls : List Line) (cc : ℕ), cc + sumIncl ls ≤ ci →
      charStartPosLoop ci fb cc ls = fb := by
  intro ls
  induction ls with
  | nil => intro cc _; rfl
  | cons l rest ih =>
    intro cc hle
    rw [sumIncl_cons] at hle
    show charStartPosLoop ci fb cc (l :: rest) = fb
    simp only [charStartPosLoop]
    rw [if_neg]
    · exact ih (cc + l.char_count_including_newline) (by omega)
    · rintro ⟨_, hcon⟩
      omega

/-- C7: `Galley::char_start_pos(char_idx)` returns
`(x_offsets[local_index], y_min)` of the line owning `char_idx` when the index
lies within the text (counting implicit newline characters); when the index is
at or past the end of the text it returns the end of the last line
(`(last.max_x, last.y_min)`); and on a galley with no lines it returns the
origin. -/
theorem char_start_pos_spec (g : Galley) (ci : ℕ) :
    (ci < sumIncl g.lines →
      ∃ k, k < g.lines.length ∧
        sumIncl (g.lines.take k) ≤ ci ∧
        ci < sumIncl (g.lines.take k) +
          (g.lines.getD k dfltLine).char_count_including_newline ∧
        g.char_start_pos ci =
          ⟨(g.lines.getD k dfltLine).x_offsets.getD
              (ci - sumIncl (g.lines.take k)) 0,
           (g.lines.getD k dfltLine).y_min⟩) ∧
    (sumIncl g.lines ≤ ci → ∀ last_line, g.lines.getLast? = some last_line →
      g.char_start_pos ci = ⟨last_line.max_x, last_line.y_min⟩) ∧
    (g.lines = [] → g.char_start_pos ci = ⟨0, 0⟩) := by
  refine ⟨?_, ?_, ?_⟩
  · intro hin
    obtain ⟨k, hk, ha, hb, hc⟩ := charStartPosLoop_found ci
      (match g.lines.getLast? with
       | some last => ⟨last.max_x, last.y_min⟩
       | none => ⟨0, 0⟩) g.lines 0 (Nat.zero_le ci) (by omega)
    exact ⟨k, hk, by omega, by omega, by
      show charStartPosLoop ci _ 0 g.lines = _
      rw [hc]
      simp⟩
  · intro hpast last_line hlast
    show charStartPosLoop ci _ 0 g.lines = _
    rw [charStartPosLoop_past ci _ g.lines 0 (by omega), hlast]
  · intro hnil
    show charStartPosLoop ci _ 0 g.lines = _
    rw [hnil]
    rfl

/-- C7 witness: the three cases instantiated at concrete galleys. -/
theorem char_start_pos_spec_witness :
    ((1 < sumIncl gTest.lines) ∧
      ∃ k, k < gTest.lines.length ∧
        sumIncl (gTest.lines.take k) ≤ 1 ∧
        1 < sumIncl (gTest.lines.take k) +
          (gTest.lines.getD k dfltLine).char_count_including_newline ∧
        gTest.char_start_pos 1 =
          ⟨(gTest.lines.getD k dfltLine).x_offsets.getD
              (1 - sumIncl (gTest.lines.take k)) 0,
           (gTest.lines.getD k dfltLine).y_min⟩) ∧
    ((sumIncl gTest.lines ≤ 9) ∧
      (gTest.lines.getLast? = some ⟨[0, 1], 18, 31, false⟩) ∧
      gTest.char_start_pos 9 =
        ⟨(⟨[0, 1], 18, 31, false⟩ : Line).max_x, (⟨[0, 1], 18, 31, false⟩ : Line).y_min⟩) ∧
    (gEmpty.lines = [] ∧ gEmpty.char_start_pos 0 = ⟨0, 0⟩) :=
  ⟨⟨by decide, (char_start_pos_spec gTest 1).1 (by decide)⟩,
   ⟨by decide, by decide,
     (char_start_pos_spec gTest 9).2.1 (by decide) ⟨[0, 1], 18, 31, false⟩ (by decide)⟩,
   ⟨rfl, (char_start_pos_spec gEmpty 0).2.2 rfl⟩⟩

/-- C5: `glyph_info` never reports failure: on a cache miss where the
allocator finds no glyph, it returns the replacement glyph's metrics and
caches them under the original character; and a second call for the same
character always returns metrics identical to the first call's result. -/
theorem glyph_info_total_idempotent (fm : FontModel) (s : FontCacheState)
    (c : Char) :
    (s.glyph_infos c = none → (fm.allocate c s.atlas).1 = none →
      (fm.glyph_info s c).1 = fm.replacement_glyph_info ∧
      (fm.glyph_info s c).2.glyph_infos c = some fm.replacement_glyph_info) ∧
    (fm.glyph_info (fm.glyph_info s c).2 c).1 = (fm.glyph_info s c).1 := by
  constructor
  · intro hmiss halloc
    unfold FontModel.glyph_info
    rw [hmiss]
    simp [halloc]
  · unfold FontModel.glyph_info
    cases hc : s.glyph_infos c with
    | some gi => simp [hc]
    | none => simp [hc]

/-- C5 witness: a miss for an unsupported character at a concrete model. -/
theorem glyph_info_total_idempotent_witness :
    ((⟨fun _ => none, 0⟩ : FontCacheState).glyph_infos 'z' = none) ∧
    ((fmTest.allocate 'z' (⟨fun _ => none, 0⟩ : FontCacheState).atlas).1 = none) ∧
    ((fmTest.glyph_info ⟨fun _ => none, 0⟩ 'z').1 = fmTest.replacement_glyph_info ∧
     (fmTest.glyph_info ⟨fun _ => none, 0⟩ 'z').2.glyph_infos 'z' =
       some fmTest.replacement_glyph_info) :=
  ⟨rfl, by decide,
    (glyph_info_total_idempotent fmTest ⟨fun _ => none, 0⟩ 'z').1 rfl (by decide)⟩

/-! ## Positional newline-flag lemmas -/

theorem getD_mem {α : Type} (ls : List α) (k : ℕ) (d : α) (hk : k < ls.length) :
    ls.getD k d ∈ ls := by
  induction ls generalizing k with
  | nil => simp at hk
  | cons a tail ih =>
    cases k with
    | zero => simp
    | succ m =>
      simp only [List.getD_cons_succ]
      exact List.mem_cons_of_mem _ (ih m (by simpa using hk))

theorem take_append_add {α : Type} (xs ys : List α) (m : ℕ) :
    (xs ++ ys).take (xs.length + m) = xs ++ ys.take m := by
  induction xs with
  | nil => simp
  | cons a tail ih =>
    simp only [List.cons_append, List.length_cons]
    rw [Nat.succ_add, List.take_succ_cons, ih]

theorem getD_append_offset {α : Type} (xs ys : List α) (m : ℕ) (d : α) :
    (xs ++ ys).getD (xs.length + m) d = ys.getD m d := by
  rw [List.getD_append_right _ _ _ _ (Nat.le_add_right _ _)]
  simp

theorem getD_setLastNewline (ls : List Line) (b : Bool) (k : ℕ) (d : Line) :
    (setLastNewline ls b).getD k d =
      if k + 1 = ls.length then { ls.getD k d with ends_with_newline := b }
      else ls.getD k d := by
  induction ls generalizing k with
  | nil => simp [setLastNewline]
  | cons l tail ih =>
    cases tail with
    | nil =>
      cases k with
      | zero => simp [setLastNewline]
      | succ m => simp [setLastNewline]
    | cons l2 ls2 =>
      cases k with
      | zero =>
        show (l :: setLastNewline (l2 :: ls2) b).getD 0 d = _
        simp
      | succ m =>
        show (l :: setLastNewline (l2 :: ls2) b).getD (m + 1) d = _
        simp only [List.getD_cons_succ, List.length_cons]
        rw [ih m]
        simp only [List.length_cons, Nat.add_right_cancel_iff]

theorem take_setLastNewline (ls : List Line) (b : Bool) (m : ℕ)
    (hm : m < ls.length) : (setLastNewline ls b).take m = ls.take m := by
  induction ls generalizing m with
  | nil => simp at hm
  | cons l tail ih =>
    cases tail with
    | nil =>
      have : m = 0 := by simpa using Nat.lt_one_iff.mp (by simpa using hm)
      subst this
      simp
    | cons l2 ls2 =>
      cases m with
      | zero => simp
      | succ k =>
        show (l :: setLastNewline (l2 :: ls2) b).take (k + 1) = _
        rw [List.take_succ_cons, List.take_succ_cons, ih k (by simpa using hm)]

theorem sumIncl_eq_sumExcl_of_flags (ls : List Line)
    (h : ∀ l ∈ ls, l.ends_with_newline = false) : sumIncl ls = sumExcl ls := by
  induction ls with
  | nil => rfl
  | cons l tail ih =>
    rw [sumIncl_cons, ih (fun l hl => h l (List.mem_cons_of_mem _ hl))]
    have hflag := h l (by simp)
    simp [sumExcl, Line.char_count_including_newline, hflag]

theorem sumExcl_take_succ (ls : List Line) (k : ℕ) (hk : k < ls.length) :
    sumExcl (ls.take (k + 1)) =
      sumExcl (ls.take k) + (ls.getD k dfltLine).char_count_excluding_newline := by
  induction ls generalizing k with
  | nil => simp at hk
  | cons l tail ih =>
    cases k with
    | zero => simp [sumExcl]
    | succ m =>
      rw [List.take_succ_cons, List.take_succ_cons, List.getD_cons_succ]
      have := ih m (by simpa using hk)
      simp only [sumExcl, List.map_cons, List.sum_cons] at this ⊢
      omega

theorem sumIncl_take_succ (ls : List Line) (k : ℕ) (hk : k < ls.length) :
    sumIncl (ls.take (k + 1)) =
      sumIncl (ls.take k) + (ls.getD k dfltLine).char_count_including_newline := by
  induction ls generalizing k with
  | nil => simp at hk
  | cons l tail ih =>
    cases k with
    | zero => simp [sumIncl]
    | succ m =>
      rw [List.take_succ_cons, List.take_succ_cons, List.getD_cons_succ]
      have := ih m (by simpa using hk)
      simp only [sumIncl, List.map_cons, List.sum_cons] at this ⊢
      omega

theorem sumExcl_take_le (ls : List Line) (m : ℕ) :
    sumExcl (ls.take m) ≤ sumExcl ls := by
  conv_rhs => rw [← List.take_append_drop m ls]
  rw [sumExcl_append]
  omega

theorem flag_getD_map_offset (cy : ℚ) (ls : List Line) (k : ℕ) :
    (((ls.map (fun l =>
        { l with y_min := l.y_min + cy, y_max := l.y_max + cy })).getD k
          dfltLine).ends_with_newline) =
      ((ls.getD k dfltLine).ends_with_newline) := by
  induction ls generalizing k with
  | nil => simp
  | cons l tail ih =>
    cases k with
    | zero => simp
    | succ m => simpa using ih m

theorem xoff_getD_map_offset (cy : ℚ) (ls : List Line) (k : ℕ) :
    (((ls.map (fun l =>
        { l with y_min := l.y_min + cy, y_max := l.y_max + cy })).getD k
          dfltLine).x_offsets) =
      ((ls.getD k dfltLine).x_offsets) := by
  induction ls generalizing k with
  | nil => simp
  | cons l tail ih =>
    cases k with
    | zero => simp
    | succ m => simpa using ih m

theorem takeWhile_getD_ne_newline (t : List Char) (idx : ℕ)
    (h : idx < (t.takeWhile notNewline).length) :
    (t.takeWhile notNewline).getD idx ' ' ≠ '\n' := by
  intro hc
  have hmem : (t.takeWhile notNewline).getD idx ' ' ∈ t.takeWhile notNewline :=
    getD_mem _ idx ' ' h
  have := List.mem_takeWhile_imp hmem
  rw [hc] at this
  simp [notNewline] at this

theorem incl_eq_excl (l : Line) (h : l.ends_with_newline = false) :
    l.char_count_including_newline = l.char_count_excluding_newline := by
  simp [Line.char_count_including_newline, h]

theorem flagPos_paragraph_step (cy : ℚ) (para rest t : List Char)
    (pl B : List Line) (b : Bool)
    (hsplit : para ++ rest = t)
    (hb : b = !rest.isEmpty)
    (hpara_nl : ∀ idx, idx < para.length → para.getD idx ' ' ≠ '\n')
    (hrest : rest = [] ∨ ∃ rt, rest = '\n' :: rt)
    (hpl_ne : pl ≠ [])
    (hpl_flags : ∀ l ∈ pl, l.ends_with_newline = false)
    (hpl_sum : sumExcl pl = para.length)
    (hBnil : rest = [] → B = [])
    (hBpos : ∀ rt, rest = '\n' :: rt → ∀ k', k' < B.length → FlagPos rt B k')
    (k : ℕ)
    (hk : k < ((setLastNewline pl b).map
        (fun l : Line => { l with y_min := l.y_min + cy, y_max := l.y_max + cy }) ++ B).length) :
    FlagPos t
      ((setLastNewline pl b).map
        (fun l : Line => { l with y_min := l.y_min + cy, y_max := l.y_max + cy }) ++ B) k := by
  subst hsplit
  set A := (setLastNewline pl b).map
    (fun l : Line => { l with y_min := l.y_min + cy, y_max := l.y_max + cy }) with hAdef
  have hAlen : A.length = pl.length := by
    rw [hAdef, List.length_map, setLastNewline_length]
  have flagA : ∀ j, (A.getD j dfltLine).ends_with_newline =
      (if j + 1 = pl.length then b else (pl.getD j dfltLine).ends_with_newline) := by
    intro j
    rw [hAdef, flag_getD_map_offset cy (setLastNewline pl b) j, getD_setLastNewline]
    split <;> rfl
  have exclA : ∀ j, (A.getD j dfltLine).char_count_excluding_newline =
      (pl.getD j dfltLine).char_count_excluding_newline := by
    intro j
    have hx : (A.getD j dfltLine).x_offsets = (pl.getD j dfltLine).x_offsets := by
      rw [hAdef, xoff_getD_map_offset cy (setLastNewline pl b) j, getD_setLastNewline]
      split <;> rfl
    simp only [Line.char_count_excluding_newline, hx]
  have sumA_take_lt : ∀ m, m < pl.length →
      sumIncl (A.take m) = sumExcl (pl.take m) := by
    intro m hm
    rw [hAdef, ← List.map_take, take_setLastNewline pl b m hm, sumIncl_map_offset]
    exact sumIncl_eq_sumExcl_of_flags _
      (fun l hl => hpl_flags l (List.mem_of_mem_take hl))
  have sumA_all : sumIncl A = para.length + (if b then 1 else 0) := by
    rw [hAdef, sumIncl_map_offset, sumIncl_setLastNewline pl b hpl_flags hpl_ne,
      hpl_sum]
  have hpara_char : ∀ idx, idx < para.length →
      (para ++ rest).getD idx ' ' ≠ '\n' := by
    intro idx hidx
    rw [List.getD_append _ _ _ _ hidx]
    exact hpara_nl idx hidx
  rcases Nat.lt_or_ge k A.length with hkA | hkB
  · -- the line belongs to the current paragraph
    have hkpl : k < pl.length := by omega
    have hgetD : ((A ++ B).getD k dfltLine) = A.getD k dfltLine :=
      List.getD_append _ _ _ _ hkA
    have htake1 : (A ++ B).take (k + 1) = A.take (k + 1) :=
      take_append_le A B (k + 1) (by omega)
    have htake0 : (A ++ B).take k = A.take k :=
      take_append_le A B k (by omega)
    have hexclk : (A.getD k dfltLine).char_count_excluding_newline =
        (pl.getD k dfltLine).char_count_excluding_newline := exclA k
    have hexcl_le : sumExcl (pl.take k) +
        (pl.getD k dfltLine).char_count_excluding_newline ≤ para.length := by
      rw [← sumExcl_take_succ pl k hkpl, ← hpl_sum]
      exact sumExcl_take_le pl (k + 1)
    constructor
    · -- the flag biconditional
      rw [hgetD, htake1, flagA k]
      by_cases hlast : k + 1 = pl.length
      · rw [if_pos hlast]
        have htakeA : A.take (k + 1) = A := by
          rw [show k + 1 = A.length from by omega, List.take_length]
        rw [htakeA, sumA_all]
        rcases hrest with hrnil | ⟨rt, hrt⟩
        · have hbval : b = false := by
            rw [hrnil] at hb
            simpa using hb
          rw [hbval]
          rw [show para.length + (if (false : Bool) then (1 : ℕ) else 0) - 1 =
            para.length - 1 from by simp]
          refine iff_of_false (by simp) ?_
          rintro ⟨hpos, heq⟩
          have hfl : (A.getD k dfltLine).ends_with_newline = false := by
            rw [flagA k, if_pos hlast, hbval]
          rw [incl_eq_excl _ hfl, hexclk] at hpos
          have hge1 : 1 ≤ para.length := by
            have h1 := sumExcl_take_succ pl k hkpl
            have h2 := sumExcl_take_le pl (k + 1)
            rw [hpl_sum] at h2
            omega
          have hidx : para.length - 1 < para.length := by omega
          exact hpara_char _ hidx heq
        · have hbval : b = true := by
            rw [hrt] at hb
            simpa using hb
          rw [hbval]
          rw [show para.length + (if (true : Bool) then (1 : ℕ) else 0) - 1 =
            para.length from by simp]
          have hfl : (A.getD k dfltLine).ends_with_newline = true := by
            rw [flagA k, if_pos hlast, hbval]
          refine iff_of_true rfl ⟨?_, ?_⟩
          · simp only [Line.char_count_including_newline, hfl, if_pos]
            omega
          · rw [hrt, getD_append_mid]
      · rw [if_neg hlast]
        have hflagf : (pl.getD k dfltLine).ends_with_newline = false :=
          hpl_flags _ (getD_mem pl k dfltLine hkpl)
        rw [hflagf]
        refine iff_of_false (by simp) ?_
        rintro ⟨hpos, heq⟩
        have hfl : (A.getD k dfltLine).ends_with_newline = false := by
          rw [flagA k, if_neg hlast, hflagf]
        rw [incl_eq_excl _ hfl, hexclk] at hpos
        have hk1 : k + 1 < pl.length := by omega
        rw [sumA_take_lt (k + 1) hk1] at heq
        have hsucc := sumExcl_take_succ pl k hkpl
        have hle := sumExcl_take_le pl (k + 1)
        rw [hpl_sum] at hle
        have hidx : sumExcl (pl.take (k + 1)) - 1 < para.length := by omega
        exact hpara_char _ hidx heq
    · -- the line's own characters are not newlines
      intro i hi
      rw [hgetD, hexclk] at hi
      rw [htake0, sumA_take_lt k hkpl]
      have hidx : sumExcl (pl.take k) + i < para.length := by omega
      exact hpara_char _ hidx
  · -- the line belongs to a later paragraph
    have hkB2 : k - A.length < B.length := by
      rw [List.length_append] at hk
      omega
    obtain ⟨rt, hrt⟩ : ∃ rt, rest = '\n' :: rt := by
      rcases hrest with h | h
      · rw [hBnil h] at hkB2
        simp at hkB2
      · exact h
    have hbval : b = true := by
      rw [hrt] at hb
      simpa using hb
    have hApos : sumIncl A = para.length + 1 := by
      rw [sumA_all, hbval]
      simp
    obtain ⟨iffB, forallB⟩ := hBpos rt hrt (k - A.length) hkB2
    set k2 := k - A.length with hk2
    have hkeq : k = A.length + k2 := by omega
    have hgetD : (A ++ B).getD k dfltLine = B.getD k2 dfltLine := by
      rw [hkeq]
      exact getD_append_offset A B k2 dfltLine
    have htake1 : (A ++ B).take (k + 1) = A ++ B.take (k2 + 1) := by
      rw [show k + 1 = A.length + (k2 + 1) from by omega]
      exact take_append_add A B (k2 + 1)
    have htake0 : (A ++ B).take k = A ++ B.take k2 := by
      rw [hkeq]
      exact take_append_add A B k2
    have hchar : ∀ m, (para ++ rest).getD (para.length + 1 + m) ' ' =
        rt.getD m ' ' := by
      intro m
      rw [hrt, show para ++ '\n' :: rt = (para ++ ['\n']) ++ rt by simp,
        show para.length + 1 + m = (para ++ ['\n']).length + m by simp]
      exact getD_append_offset _ _ _ _
    constructor
    · rw [hgetD, htake1, sumIncl_append, hApos]
      constructor
      · intro hflag
        obtain ⟨hpos, heq⟩ := iffB.mp hflag
        refine ⟨hpos, ?_⟩
        have hs1 : 1 ≤ sumIncl (B.take (k2 + 1)) := by
          have := sumIncl_take_succ B k2 hkB2
          omega
        rw [show para.length + 1 + sumIncl (B.take (k2 + 1)) - 1 =
          para.length + 1 + (sumIncl (B.take (k2 + 1)) - 1) from by omega, hchar]
        exact heq
      · rintro ⟨hpos, heq⟩
        refine iffB.mpr ⟨hpos, ?_⟩
        have hs1 : 1 ≤ sumIncl (B.take (k2 + 1)) := by
          have := sumIncl_take_succ B k2 hkB2
          omega
        rw [show para.length + 1 + sumIncl (B.take (k2 + 1)) - 1 =
          para.length + 1 + (sumIncl (B.take (k2 + 1)) - 1) from by omega, hchar] at heq
        exact heq
    · intro i hi
      rw [hgetD] at hi
      rw [htake0, sumIncl_append, hApos,
        show para.length + 1 + sumIncl (B.take k2) + i =
          para.length + 1 + (sumIncl (B.take k2) + i) from by omega, hchar]
      exact forallB i hi

theorem multiline_flags_positional (f : Font) (mw : ℚ) :
    ∀ (n : ℕ) (t : List Char), t.length ≤ n → ∀ (cy : ℚ) (k : ℕ),
      k < (multilineParas f mw t cy).1.length →
      FlagPos t (multilineParas f mw t cy).1 k := by
  intro n
  induction n with
  | zero =>
    intro t ht cy k hk
    have : t = [] := List.length_eq_zero.mp (by omega)
    subst this
    simp [multilineParas] at hk
  | succ n ih =>
    intro t ht cy k hk
    cases t with
    | nil => simp [multilineParas] at hk
    | cons c cs =>
      simp only [multilineParas] at hk ⊢
      refine flagPos_paragraph_step cy ((c :: cs).takeWhile notNewline)
        ((c :: cs).dropWhile notNewline) (c :: cs) _ _ _
        (List.takeWhile_append_dropWhile (p := notNewline) (l := c :: cs)) rfl
        (fun idx h => takeWhile_getD_ne_newline (c :: cs) idx h) ?_
        (layout_paragraph_ne_nil f _ mw) (layout_paragraph_flags f _ mw)
        (layout_paragraph_sumExcl f _ mw) ?_ ?_ k hk
      · cases hrest2 : (c :: cs).dropWhile notNewline with
        | nil => exact Or.inl rfl
        | cons r rt =>
          have hr := dropWhile_head_not notNewline (c :: cs) r rt hrest2
          have hr2 : r = '\n' := by simpa [notNewline] using hr
          exact Or.inr ⟨rt, by rw [hr2]⟩
      · intro hnil
        rw [hnil]
        simp [multilineParas]
      · intro rt hrt k' hk'
        rw [hrt] at hk' ⊢
        simp only [List.tail_cons] at hk' ⊢
        have hlen : rt.length ≤ n := by
          have hsuffix := (List.dropWhile_suffix (l := c :: cs) notNewline).length_le
          rw [hrt] at hsuffix
          simp only [List.length_cons] at ht hsuffix
          omega
        exact ih rt hlen _ k' hk'

theorem flagPos_append_right (t : List Char) (L M : List Line) (k : ℕ)
    (hk : k + 1 ≤ L.length) (h : FlagPos t L k) : FlagPos t (L ++ M) k := by
  obtain ⟨h1, h2⟩ := h
  constructor
  · rw [List.getD_append _ _ _ _ (by omega), take_append_le _ _ _ hk]
    exact h1
  · intro i hi
    rw [List.getD_append _ _ _ _ (by omega)] at hi
    rw [take_append_le _ _ _ (by omega)]
    exact h2 i hi

theorem layout_multiline_flags_positional (f : Font) (t : List Char) (mw : ℚ) :
    ∀ k, k < (f.layout_multiline t mw).lines.length →
      FlagPos t (f.layout_multiline t mw).lines k := by
  intro k hk
  simp only [Font.layout_multiline] at hk ⊢
  split at hk
  · next hpush =>
    rw [List.length_append, List.length_cons, List.length_nil] at hk
    rw [if_pos hpush]
    rcases Nat.lt_or_ge k (multilineParas f mw t 0).1.length with hkL | hkL
    · exact flagPos_append_right t _ _ k (by omega)
        (multiline_flags_positional f mw t.length t le_rfl 0 k hkL)
    · have hkeq : k = (multilineParas f mw t 0).1.length := by omega
      constructor
      · rw [hkeq, getD_append_mid]
        refine iff_of_false (by simp) ?_
        rintro ⟨hpos, _⟩
        simp [Line.char_count_including_newline,
          Line.char_count_excluding_newline] at hpos
      · intro i hi
        rw [hkeq, getD_append_mid] at hi
        simp [Line.char_count_excluding_newline] at hi
  · next hpush =>
    rw [if_neg hpush]
    exact multiline_flags_positional f mw t.length t le_rfl 0 k hk

/-- C2: in `layout_multiline`, a line is flagged `ends_with_newline` exactly
when its cumulative character span ends on a `'\n'` of the input while none of
its own characters is a `'\n'` (`FlagPos` — positionally, the last line of
each paragraph is flagged exactly when a `'\n'` follows that paragraph); if
the input is empty or ends with `'\n'`, one extra final line with
`x_offsets = [0.0]` and `ends_with_newline = false` is appended after the
paragraph lines; the flagged lines number exactly the `'\n'` characters; and
for every input the last line of the galley has `ends_with_newline = false`. -/
theorem newline_flags_spec (f : Font) (t : List Char) (mw : ℚ) :
    (∀ k, k < (f.layout_multiline t mw).lines.length →
      FlagPos t (f.layout_multiline t mw).lines k) ∧
    (f.layout_multiline t mw).lines.countP (fun l => l.ends_with_newline) =
      t.count '\n' ∧
    ((t = [] ∨ t.getLast? = some '\n') →
      (f.layout_multiline t mw).lines =
        (multilineParas f mw t 0).1 ++
          [⟨[0], (multilineParas f mw t 0).2,
            (multilineParas f mw t 0).2 + f.line_spacing, false⟩]) ∧
    ((f.layout_multiline t mw).lines.getLast?.map (fun l => l.ends_with_newline)) =
      some false := by
  have hcount := multiline_countTrue f mw t.length t le_rfl 0
  refine ⟨layout_multiline_flags_positional f t mw, ?_, ?_, ?_⟩
  · simp only [Font.layout_multiline]
    split
    · rw [List.countP_append, hcount]
      simp
    · exact hcount
  · intro hpush
    simp only [Font.layout_multiline]
    rw [if_pos hpush]
  · simp only [Font.layout_multiline]
    split
    · rw [List.getLast?_concat]
      simp
    · next hnot =>
      push_neg at hnot
      exact multiline_last_flag f mw t.length t le_rfl hnot.1 hnot.2 0

/-- C2 witness: the positional flag description at line `0` of the galley of
`"\n"`, and the appended empty trailing line on that input. -/
theorem newline_flags_spec_witness :
    (0 < (fUnit.layout_multiline ['\n'] 5).lines.length ∧
      FlagPos ['\n'] (fUnit.layout_multiline ['\n'] 5).lines 0) ∧
    ((['\n'] : List Char) = [] ∨ (['\n'] : List Char).getLast? = some '\n') ∧
    (fUnit.layout_multiline ['\n'] 5).lines =
      (multilineParas fUnit 5 ['\n'] 0).1 ++
        [⟨[0], (multilineParas fUnit 5 ['\n'] 0).2,
          (multilineParas fUnit 5 ['\n'] 0).2 + fUnit.line_spacing, false⟩] := by
  have hpush := (newline_flags_spec fUnit ['\n'] 5).2.2.1 (Or.inr (by decide))
  have hlen : 0 < (fUnit.layout_multiline ['\n'] 5).lines.length := by
    rw [hpush]
    simp
  exact ⟨⟨hlen, (newline_flags_spec fUnit ['\n'] 5).1 0 hlen⟩,
    Or.inr (by decide), hpush⟩

end EguiFont
